import Mathlib

/-!
Shallow embedding of the `AtomicVector` subsystem of `fblualib`
(`fblualib/atomicvector/AtomicVector.h`), together with the
`detail::SensitiveSection` helper, specialized to element type `T = Nat`
(`0` is the designated invalid/null sentinel, exactly as the C++ assumes a
pointer-like `T` whose zero representation is never a valid stored value).

The embedding is sequential: each public operation (`append`, `read`,
`write`, `size`, `save`, `load`, the destructor) is a function on an
explicit `State`.  CAS operations, which in a sequential execution succeed
exactly when the loaded value still equals the expected one, are translated
accordingly; an `append` whose slot-CAS would fail forever in a sequential
execution is `none`.  `read` and `write` additionally return the list of
observable side effects (sensitive-section entry/exit, refcount
increments/decrements, slot stores) so that statements such as "a bounds
failure performs no effect" can be expressed faithfully.
-/

namespace Fblualib



/-! ## Byte-level encoding helpers (host is little-endian x86_64:
`int` is 4 bytes, `size_t` is 8 bytes). -/

/-- Little-endian value of a byte list (each entry is one byte). -/
def bytesToNat : List Nat → Nat
  | [] => 0
  | b :: bs => b + 256 * bytesToNat bs

/-- Little-endian encoding of `n` into exactly `w` bytes (truncating,
as a C store of a `w`-byte integer does). -/
def encNat : Nat → Nat → List Nat
  | 0, _ => []
  | w + 1, n => n % 256 :: encNat w (n / 256)

/-! ## Index mapping (`indexToBucketIndex` / `indexToIntraBucketIndex`).

`folly::findLastSet v` is the 1-based index of the highest set bit of `v`
(`0` for `v = 0`); the vector maps the global slot index `idx` to bucket
`findLastSet (idx+1) - 1` and intra-bucket offset `idx - (2^bucket - 1)`. -/

/-- Floor base-2 logarithm, with structural fuel so that it reduces
definitionally (agrees with `Nat.log2`, see `log2Aux_eq`). -/
def log2Aux : Nat → Nat → Nat
  | 0, _ => 0
  | fuel + 1, n => if 2 ≤ n then log2Aux fuel (n / 2) + 1 else 0

/-- `folly::findLastSet`: 1-based index of the most significant set bit,
`0` on input `0`.  (folly is an external dependency; this is its documented
semantics.) -/
def findLastSet (n : Nat) : Nat :=
  if n = 0 then 0 else log2Aux n n + 1

def kMaxBuckets : Nat := 32

/-- `AtomicVector::indexToBucketIndex`. -/
def indexToBucketIndex (index : Nat) : Nat :=
  findLastSet (index + 1) - 1

/-- `AtomicVector::indexToIntraBucketIndex` (the asserts
`index >= bucketStart` and `index < bucketEnd` hold on every index the
vector ever passes in; see `intra_lt` below). -/
def indexToIntraBucketIndex (index bucket : Nat) : Nat :=
  index - (2 ^ bucket - 1)

/-! ## Vector state.

A `Bucket` is its slot array (a list of length `capacity`, zero-initialized
by `calloc`).  `m_buckets` is the spine of (at most `kMaxBuckets`) lazily
allocated buckets; `none` is a null bucket pointer.  `rc` tracks, per
element value, the external refcount manipulated through `Refcount<T>`
(exactly the integer-keyed count table the unit test instantiates). -/

structure State where
  buckets : Nat → Option (List Nat)
  msize : Nat
  rc : Nat → Int

/-- `Refcount::inc`. -/
def rcInc (rc : Nat → Int) (v : Nat) : Nat → Int :=
  fun w => if w = v then rc w + 1 else rc w

/-- `Refcount::dec`. -/
def rcDec (rc : Nat → Int) (v : Nat) : Nat → Int :=
  fun w => if w = v then rc w - 1 else rc w

/-- The freshly constructed `AtomicVector` (all bucket pointers null,
`m_size = 0`); element refcounts start at zero. -/
def State.init : State :=
  { buckets := fun _ => none, msize := 0, rc := fun _ => 0 }

/-- `AtomicVector::size`. -/
def size (s : State) : Nat :=
  s.msize

/-- The value stored in global slot `idx` by a given bucket spine
(`none` when the bucket is unallocated or the offset is out of range). -/
def slotAtB (bks : Nat → Option (List Nat)) (idx : Nat) : Option Nat :=
  match bks (indexToBucketIndex idx) with
  | none => none
  | some bk => bk[indexToIntraBucketIndex idx (indexToBucketIndex idx)]?

/-- The value currently stored in the slot with global index `idx`. -/
def slotAt (s : State) (idx : Nat) : Option Nat :=
  slotAtB s.buckets idx

/-- Observable side effects of an operation (sensitive-section traffic,
refcount traffic, slot stores). -/
inductive Event where
  | enterSS : Event
  | leaveSS : Event
  | waitSS : Event
  | rcIncEv : Nat → Event
  | rcDecEv : Nat → Event
  | slotStore : Nat → Nat → Event
  deriving DecidableEq, Repr

/-- `AtomicVector::append`.  Sequentially, every CAS succeeds exactly when
the location still holds the expected value, so the `goto restart` paths
collapse: the bucket-pointer CAS always succeeds (the pointer was just
loaded as null), and a slot-CAS failure would reload the same `m_size` and
fail forever — that divergence is `none`.  On success, returns the
insertion point and the new state (slot stored, refcount bumped,
`m_size` incremented). -/
def append (s : State) (val : Nat) : Option (Nat × State) :=
  let insertionPoint := s.msize
  let b := indexToBucketIndex insertionPoint
  let buck := match s.buckets b with
    | none => List.replicate (2 ^ b) 0
    | some bk => bk
  let indexInBucket := indexToIntraBucketIndex insertionPoint b
  match buck[indexInBucket]? with
  | some 0 =>
    some (insertionPoint,
      { buckets := fun i => if i = b then some (buck.set indexInBucket val) else s.buckets i,
        msize := insertionPoint + 1,
        rc := rcInc s.rc val })
  | _ => none

inductive RdRes where
  | ok : Nat → RdRes
  | boundsError : RdRes
  | crash : RdRes
  deriving DecidableEq, Repr

/-- `AtomicVector::read`.  The bounds check (`slot >= m_size`) throws
before anything else happens; otherwise the thread enters the sensitive
section, loads the slot, bumps the value's refcount, and leaves.
Dereferencing a null bucket pointer is undefined behavior, rendered
`crash` (it never happens on well-formed states). -/
def read (s : State) (slot : Nat) : RdRes × State × List Event :=
  if s.msize ≤ slot then (.boundsError, s, [])
  else
    match slotAt s slot with
    | none => (.crash, s, [.enterSS])
    | some val =>
      (.ok val, { s with rc := rcInc s.rc val },
       [.enterSS, .rcIncEv val, .leaveSS])

inductive WrRes where
  | ok : WrRes
  | boundsError : WrRes
  | crash : WrRes
  deriving DecidableEq, Repr

/-- `AtomicVector::write`.  The bounds check throws before `rc.inc(val)`;
otherwise the new value's refcount is bumped, the slot is atomically
swapped (the sequential CAS-retry loop always succeeds on first try), and,
if the old value was non-null, the writer waits on the sensitive section
and then drops the old value's refcount. -/
def write (s : State) (slot val : Nat) : WrRes × State × List Event :=
  if s.msize ≤ slot then (.boundsError, s, [])
  else
    let rc1 := rcInc s.rc val
    let b := indexToBucketIndex slot
    match s.buckets b with
    | none => (.crash, { s with rc := rc1 }, [.rcIncEv val])
    | some bk =>
      let bidx := indexToIntraBucketIndex slot b
      match bk[bidx]? with
      | none => (.crash, { s with rc := rc1 }, [.rcIncEv val])
      | some old =>
        let s1 : State :=
          { buckets := fun i => if i = b then some (bk.set bidx val) else s.buckets i,
            msize := s.msize,
            rc := if old = 0 then rc1 else rcDec rc1 old }
        (.ok, s1,
         [.rcIncEv val, .slotStore slot val] ++
           (if old = 0 then [] else [.waitSS, .rcDecEv old]))

/-- `AtomicVector::~AtomicVector`: for every published slot, `read` it and
decrement its refcount twice (once for the read's own reference, once for
the vector's stored reference); then free every bucket.  `none` if a read
crashes (never on well-formed states). -/
def destroy (s : State) : Option State :=
  ((List.range s.msize).foldlM
    (fun (st : State) (i : Nat) =>
      match read st i with
      | (.ok val, st1, _) =>
        some { st1 with rc := rcDec (rcDec st1.rc val) val }
      | _ => none) s).map
    (fun (st : State) => { st with buckets := fun _ => none })

/-! ## `detail::SensitiveSection`.

`m_counts` is an array of `m_n` atomic `uint32_t` counters (zeroed by
`calloc`); a thread's counter is selected by the Knuth multiplicative hash
of its `pthread_self()` value (a 64-bit `uintptr_t`, so the product is
taken modulo `2^64`) reduced modulo `m_n`.  Counter arithmetic wraps at
`2^32`. -/

structure SensitiveSection where
  m_n : Nat
  m_counts : Nat → Nat

/-- The constructor `SensitiveSection(n)`: `n` zeroed counters. -/
def SensitiveSection.create (n : Nat) : SensitiveSection :=
  { m_n := n, m_counts := fun _ => 0 }

/-- `getCount()`: index of the calling thread's counter. -/
def SensitiveSection.countIndex (ss : SensitiveSection) (tid : Nat) : Nat :=
  tid * 2654435761 % 2 ^ 64 % ss.m_n

/-- `enter()`: increment the calling thread's counter (`uint32_t`, wraps). -/
def SensitiveSection.enter (ss : SensitiveSection) (tid : Nat) : SensitiveSection :=
  { ss with
    m_counts := fun i =>
      if i = ss.countIndex tid then (ss.m_counts i + 1) % 2 ^ 32 else ss.m_counts i }

/-- `leave()`: decrement the calling thread's counter (`uint32_t`, wraps). -/
def SensitiveSection.leave (ss : SensitiveSection) (tid : Nat) : SensitiveSection :=
  { ss with
    m_counts := fun i =>
      if i = ss.countIndex tid then (ss.m_counts i + (2 ^ 32 - 1)) % 2 ^ 32
      else ss.m_counts i }

/-- `appearsFree()`: all counters currently read zero. -/
def SensitiveSection.appearsFree (ss : SensitiveSection) : Bool :=
  (List.range ss.m_n).all (fun i => ss.m_counts i == 0)

/-! ## Bulk persistence (`save` / `load`).

A file is a byte list.  On x86_64 the header is a 4-byte `int` magic
`0x04081977` followed by an 8-byte `size_t` element count, an 8-byte
offset directory entry per element, then, at each recorded offset, an
8-byte `size_t` length prefix followed by the `Serde`-encoded payload.
`Serde<T>` is a pluggable policy whose specializations live outside this
subsystem, so `save`/`load` are parameterized by a pure encoder
`ser : Nat → List Nat` and decoder `des : List Nat → Option Nat`
(spec contract: pure functions, `load` of a `save` yields the value). -/

def kMagic : Nat := 0x04081977

/-- `AtomicVector::fileOp`: an `fread`/`fwrite` that transferred
`nFrobbed` of the requested `nData` items; a short transfer throws. -/
def fileOp (nFrobbed nData : Nat) : Option Unit :=
  if nFrobbed ≠ nData then none else some ()

/-- `n` bytes of `file` starting at byte offset `off`; `none` models a
short read (requesting 0 bytes never fails, as in `fread`/`pread`). -/
def readBytes (file : List Nat) (off n : Nat) : Option (List Nat) :=
  if n = 0 then some []
  else if off + n ≤ file.length then some ((file.drop off).take n)
  else none

/-- Decode `k` consecutive little-endian `size_t` values. -/
def decodeWords : Nat → List Nat → List Nat
  | 0, _ => []
  | k + 1, bs => bytesToNat (bs.take 8) :: decodeWords k (bs.drop 8)

/-- The per-element loop of `AtomicVector::save`, over the remaining
indices: `read` the element, record the current file offset, write the
length-prefixed `Serde` blob, and (`SCOPE_EXIT`) drop the read's refcount.
Returns the final state, the recorded offsets and the data bytes. -/
def saveElems (ser : Nat → List Nat) :
    List Nat → Nat → State → Option (State × List Nat × List Nat)
  | [], _, s => some (s, [], [])
  | i :: is, pos, s =>
    match read s i with
    | (.ok val, s1, _) =>
      let s2 : State := { s1 with rc := rcDec s1.rc val }
      let str := ser val
      match saveElems ser is (pos + (8 + str.length)) s2 with
      | some (s3, offs, data) =>
        some (s3, pos :: offs, (encNat 8 str.length ++ str) ++ data)
      | none => none
    | _ => none

/-- `AtomicVector::save`: magic, element count, the offset directory
(reserved first, overwritten at the end with the recorded offsets), then
the length-prefixed payloads in index order.  The state after the
operation is returned alongside the produced bytes (`none` when a `read`
inside the loop would crash). -/
def save (ser : Nat → List Nat) (s : State) : Option (List Nat) × State :=
  let sz := size s
  let dataStart := 4 + 8 + 8 * sz
  match saveElems ser (List.range sz) dataStart s with
  | some (s3, offs, data) =>
    (some (encNat 4 kMagic ++ encNat 8 sz ++
             (offs.map (encNat 8)).flatten ++ data), s3)
  | none => (none, s)

/-- `AtomicVector::growUnsafe`: asserts `m_size == 0` and that no bucket
up to the target bucket index is allocated, then stores `size` into
`m_size` and allocates buckets `0..indexToBucketIndex size` with
capacities `2^i` (zeroed).  A failed assert is `none`. -/
def growUnsafe (s : State) (sz : Nat) : Option State :=
  if s.msize ≠ 0 then none
  else if (List.range (indexToBucketIndex sz + 1)).all
      (fun i => (s.buckets i).isNone) then
    some { buckets := fun i =>
             if i ≤ indexToBucketIndex sz then some (List.replicate (2 ^ i) 0)
             else s.buckets i,
           msize := sz,
           rc := s.rc }
  else none

/-- Outcome of `load`, carrying the in-memory state as it stands when the
operation returns or throws (a thrown error does not roll anything back).
`ok` additionally carries `finalFilePtr`: `none` means the local variable
was never assigned (it is declared uninitialized and only set by the
worker iteration handling the last element). -/
inductive LoadOutcome where
  | ok : State → Option Nat → LoadOutcome
  | ioError : State → LoadOutcome
  | badMagic : State → LoadOutcome
  | deserError : State → LoadOutcome
  | assertFail : State → LoadOutcome
  | crash : State → LoadOutcome

/-- The state carried by a `LoadOutcome`. -/
def LoadOutcome.st : LoadOutcome → State
  | .ok s _ => s
  | .ioError s => s
  | .badMagic s => s
  | .deserError s => s
  | .assertFail s => s
  | .crash s => s

/-- Whether the load succeeded, and if so with which `finalFilePtr`. -/
def LoadOutcome.pos : LoadOutcome → Option (Option Nat)
  | .ok _ fp => some fp
  | _ => none

/-- The worker loop of `AtomicVector::load`, sequentialized over the given
index list (the worker threads stripe the indices `tid, tid+nThreads, ...`
and all indices are distinct, so the final state does not depend on the
interleaving): `pread` the 8-byte length at `directory[i]`, `pread` the
payload, remember the final file pointer when `i` is the last element,
deserialize, and `write(i, value)`. -/
def loadLoop (des : List Nat → Option Nat) (file : List Nat)
    (directory : List Nat) (sz : Nat) :
    List Nat → State → Option Nat → LoadOutcome
  | [], s, fp => .ok s fp
  | i :: is, s, fp =>
    let off := directory.getD i 0
    match readBytes file off 8 with
    | none => .ioError s
    | some lenBytes =>
      let entrySz := bytesToNat lenBytes
      match readBytes file (off + 8) entrySz with
      | none => .ioError s
      | some payload =>
        let fp1 := if i = sz - 1 then some (off + entrySz + 8) else fp
        match des payload with
        | none => .deserError s
        | some val =>
          match write s i val with
          | (.ok, s1, _) => loadLoop des file directory sz is s1 fp1
          | _ => .crash s

/-- `AtomicVector::load`: read and validate the magic, read the element
count and the offset directory, `growUnsafe` to the final size, then run
the worker loop over all indices; on success the caller's `FILE*` is
seeked to `finalFilePtr`. -/
def load (des : List Nat → Option Nat) (file : List Nat) (s : State) :
    LoadOutcome :=
  match readBytes file 0 4 with
  | none => .ioError s
  | some magicBytes =>
    if bytesToNat magicBytes ≠ kMagic then .badMagic s
    else
      match readBytes file 4 8 with
      | none => .ioError s
      | some szBytes =>
        let sz := bytesToNat szBytes
        match readBytes file 12 (8 * sz) with
        | none => .ioError s
        | some dirBytes =>
          let directory := decodeWords sz dirBytes
          match growUnsafe s sz with
          | none => .assertFail s
          | some s1 => loadLoop des file directory sz (List.range sz) s1 none

/-! ## A concrete `Serde` instance for witnesses.

The repository's `Serde` specializations (thrift-encoded tensors) live
outside this subsystem; for concrete evaluations we use the evident
little-endian variable-length coder on `Nat`, which satisfies the spec's
pure round-trip contract. -/

/-- Little-endian base-256 digits of `n` (empty for `0`), with structural
fuel so that it reduces definitionally. -/
def natToBytesAux : Nat → Nat → List Nat
  | 0, _ => []
  | fuel + 1, n => if n = 0 then [] else n % 256 :: natToBytesAux fuel (n / 256)

def natToBytes (n : Nat) : List Nat := natToBytesAux n n

def serNat : Nat → List Nat := natToBytes

def desNat (bs : List Nat) : Option Nat := some (bytesToNat bs)

/-! ## Sequential client traces.

A client command either appends a non-null value, reads an index and
(as the refcount contract requires) eventually releases the returned
reference, or overwrites an index with a non-null value.  Commands whose
operation reports an error leave the state unchanged (the thrown bounds
error is observed by the caller, who then has no reference to release). -/

inductive Cmd where
  | app : Nat → Cmd
  | rdRel : Nat → Cmd
  | wr : Nat → Nat → Cmd
  deriving DecidableEq, Repr

/-- Stored values are references, never null. -/
def ValidCmd : Cmd → Prop
  | .app v => v ≠ 0
  | .rdRel _ => True
  | .wr _ v => v ≠ 0

instance : DecidablePred ValidCmd := by
  intro c
  cases c <;> simp only [ValidCmd] <;> infer_instance

def step (s : State) (c : Cmd) : State :=
  match c with
  | .app v =>
    match append s v with
    | some (_, s1) => s1
    | none => s
  | .rdRel idx =>
    match read s idx with
    | (.ok v, s1, _) => { s1 with rc := rcDec s1.rc v }
    | _ => s
  | .wr idx v =>
    match write s idx v with
    | (.ok, s1, _) => s1
    | _ => s

def runTrace (cs : List Cmd) : State :=
  cs.foldl step State.init

/-! ## Well-formedness.

Invariant of every sequentially reachable vector: allocated buckets have
capacity `2^b`; the bucket of every published index is allocated; and a
slot holds a non-null value exactly when its global index is published
(unpublished slots still hold the `calloc` zero — the property making
CAS-from-zero a sound claim mechanism). -/

def wf (s : State) : Prop :=
  (∀ b bk, s.buckets b = some bk → bk.length = 2 ^ b) ∧
  (∀ idx, idx < s.msize → (s.buckets (indexToBucketIndex idx)).isSome) ∧
  (∀ b bk j v, s.buckets b = some bk → bk[j]? = some v →
    (2 ^ b - 1 + j < s.msize ↔ v ≠ 0))

/-- Refcount accounting: every value's external refcount equals the number
of published slots holding it (callers having released all read
references). -/
def slotCount (s : State) (v : Nat) : Nat :=
  (List.range (size s)).countP (fun i => slotAt s i == some v)

def rcOk (s : State) : Prop :=
  ∀ v, s.rc v = (slotCount s v : Int)

/-! ## Specification of the destructor. -/

/-- Occurrences of `v` among the first `k` slots. -/
def countBelow (s : State) (k v : Nat) : Nat :=
  (List.range k).countP (fun i => slotAt s i == some v)

/-! ## Persistence: the shape of a saved file. -/

/-- The published elements, in index order. -/
def elems (s : State) : List Nat :=
  (List.range s.msize).map (fun i => (slotAt s i).getD 0)

/-- The length-prefixed payload blobs of `save`, in order. -/
def payloads (ser : Nat → List Nat) : List Nat → List Nat
  | [] => []
  | v :: vs => (encNat 8 (ser v).length ++ ser v) ++ payloads ser vs

/-- The file offsets `save` records for the blobs, the first blob starting
at `pos`. -/
def offsetsOf (ser : Nat → List Nat) : List Nat → Nat → List Nat
  | [], _ => []
  | v :: vs, pos => pos :: offsetsOf ser vs (pos + (8 + (ser v).length))

/-- The byte image `save` produces on a well-formed state. -/
def fileOf (ser : Nat → List Nat) (s : State) : List Nat :=
  encNat 4 kMagic ++ encNat 8 s.msize ++
    ((offsetsOf ser (elems s) (12 + 8 * s.msize)).map (encNat 8)).flatten ++
    payloads ser (elems s)

/-! ## Error semantics of `load`, and the final file position. -/

def LoadOutcome.isIoError : LoadOutcome → Bool
  | .ioError _ => true
  | _ => false

def LoadOutcome.isOk : LoadOutcome → Bool
  | .ok _ _ => true
  | _ => false

/-- The element count a load of `file` reads (bytes 4..11, little-endian). -/
def fileCount (file : List Nat) : Nat :=
  bytesToNat ((file.drop 4).take 8)

/-- The offset directory a load of `file` reads. -/
def fileDirectory (file : List Nat) : List Nat :=
  decodeWords (fileCount file) ((file.drop 12).take (8 * fileCount file))

/-- The recorded offset of the last element. -/
def lastEntryOffset (file : List Nat) : Nat :=
  (fileDirectory file).getD (fileCount file - 1) 0

/-- The length prefix stored at the last element's offset. -/
def lastEntryLength (file : List Nat) : Nat :=
  bytesToNat ((file.drop (lastEntryOffset file)).take 8)

theorem encNat_length (w n : Nat) : (encNat w n).length = w := by
  induction w generalizing n with
  | zero => rfl
  | succ w ih => simp [encNat, ih]

theorem bytesToNat_encNat (w n : Nat) : bytesToNat (encNat w n) = n % 256 ^ w := by
  induction w generalizing n with
  | zero => simp [encNat, bytesToNat, Nat.mod_one]
  | succ w ih =>
    simp only [encNat, bytesToNat, ih]
    rw [Nat.pow_succ, Nat.mul_comm (256 ^ w) 256, Nat.mod_mul]

theorem log2Aux_eq (fuel n : Nat) (h : n ≤ fuel) : log2Aux fuel n = Nat.log2 n := by
  induction fuel generalizing n with
  | zero =>
    interval_cases n
    simp [log2Aux, Nat.log2]
  | succ fuel ih =>
    rw [log2Aux, Nat.log2]
    by_cases h2 : 2 ≤ n
    · rw [if_pos h2, if_pos h2, ih (n / 2) (by omega)]
    · rw [if_neg h2, if_neg h2]

theorem findLastSet_eq (n : Nat) :
    findLastSet n = if n = 0 then 0 else Nat.log2 n + 1 := by
  rw [findLastSet, log2Aux_eq n n (Nat.le_refl n)]

theorem indexToBucketIndex_eq_log2 (index : Nat) :
    indexToBucketIndex index = Nat.log2 (index + 1) := by
  simp [indexToBucketIndex, findLastSet_eq]

theorem pow_bucketIndex_le (index : Nat) :
    2 ^ indexToBucketIndex index ≤ index + 1 := by
  rw [indexToBucketIndex_eq_log2]
  exact Nat.log2_self_le (Nat.succ_ne_zero index)

theorem lt_pow_succ_bucketIndex (index : Nat) :
    index + 1 < 2 ^ (indexToBucketIndex index + 1) := by
  rw [indexToBucketIndex_eq_log2]
  exact (Nat.log2_lt (Nat.succ_ne_zero index)).mp (Nat.lt_succ_self _)

/-- The intra-bucket offset is below the bucket's capacity. -/
theorem intra_lt (index : Nat) :
    indexToIntraBucketIndex index (indexToBucketIndex index) <
      2 ^ indexToBucketIndex index := by
  have h1 := pow_bucketIndex_le index
  have h2 := lt_pow_succ_bucketIndex index
  rw [Nat.pow_succ] at h2
  unfold indexToIntraBucketIndex
  omega

/-- The global index is recovered from its bucket number and offset. -/
theorem glob_recover (index : Nat) :
    2 ^ indexToBucketIndex index - 1 +
      indexToIntraBucketIndex index (indexToBucketIndex index) = index := by
  have h1 := pow_bucketIndex_le index
  unfold indexToIntraBucketIndex
  omega

/-- Conversely, slot `j` of bucket `b` (for `j < 2^b`) has global index
`2^b - 1 + j`, and that index maps back to bucket `b`, offset `j`. -/
theorem bucketIndex_glob (b j : Nat) (hj : j < 2 ^ b) :
    indexToBucketIndex (2 ^ b - 1 + j) = b ∧
      indexToIntraBucketIndex (2 ^ b - 1 + j) b = j := by
  have hpos : 1 ≤ 2 ^ b := Nat.one_le_two_pow
  have hglob : 2 ^ b - 1 + j + 1 = 2 ^ b + j := by omega
  have hb : indexToBucketIndex (2 ^ b - 1 + j) = b := by
    rw [indexToBucketIndex_eq_log2]
    have hne : 2 ^ b - 1 + j + 1 ≠ 0 := by omega
    have hle : b ≤ Nat.log2 (2 ^ b - 1 + j + 1) := by
      rw [Nat.le_log2 hne]; omega
    have hlt : Nat.log2 (2 ^ b - 1 + j + 1) < b + 1 := by
      rw [Nat.log2_lt hne, Nat.pow_succ]; omega
    omega
  refine ⟨hb, ?_⟩
  unfold indexToIntraBucketIndex
  omega

theorem bytesToNat_natToBytesAux (fuel n : Nat) (h : n ≤ fuel) :
    bytesToNat (natToBytesAux fuel n) = n := by
  induction fuel generalizing n with
  | zero => interval_cases n; rfl
  | succ fuel ih =>
    rw [natToBytesAux]
    by_cases h0 : n = 0
    · simp [h0, bytesToNat]
    · rw [if_neg h0, bytesToNat, ih (n / 256) (by omega)]
      omega

theorem desNat_serNat (v : Nat) : desNat (serNat v) = some v := by
  simp [desNat, serNat, natToBytes, bytesToNat_natToBytesAux v v (Nat.le_refl v)]

/-! ## Slot-level lemmas. -/

theorem glob_inj (idx g : Nat)
    (hb : indexToBucketIndex idx = indexToBucketIndex g)
    (hj : indexToIntraBucketIndex idx (indexToBucketIndex idx) =
      indexToIntraBucketIndex g (indexToBucketIndex g)) : idx = g := by
  have h1 := glob_recover idx
  have h2 := glob_recover g
  rw [hj, hb] at h1
  omega

/-- Storing `v` into the slot of global index `g` makes `slotAtB` return
`some v` at `g`. -/
theorem slotAtB_upd_self (bks : Nat → Option (List Nat)) (g v : Nat)
    (bk : List Nat)
    (hlen : indexToIntraBucketIndex g (indexToBucketIndex g) < bk.length) :
    slotAtB (fun i => if i = indexToBucketIndex g then
        some (bk.set (indexToIntraBucketIndex g (indexToBucketIndex g)) v)
      else bks i) g = some v := by
  unfold slotAtB
  simp only [if_pos rfl]
  exact List.getElem?_set_self hlen

/-- Storing into the slot of global index `g` leaves every other global
slot as determined by the stored bucket (`bk` at bucket `indexToBucketIndex
g`, the old spine elsewhere). -/
theorem slotAtB_upd_other (bks : Nat → Option (List Nat)) (g v idx : Nat)
    (bk : List Nat) (hne : idx ≠ g) :
    slotAtB (fun i => if i = indexToBucketIndex g then
        some (bk.set (indexToIntraBucketIndex g (indexToBucketIndex g)) v)
      else bks i) idx =

      if indexToBucketIndex idx = indexToBucketIndex g then
        bk[indexToIntraBucketIndex idx (indexToBucketIndex idx)]?
      else slotAtB bks idx := by
  by_cases hb : indexToBucketIndex idx = indexToBucketIndex g
  · rw [if_pos hb]
    unfold slotAtB
    rw [hb]
    simp only [if_pos rfl]
    have hjne : indexToIntraBucketIndex g (indexToBucketIndex g) ≠
        indexToIntraBucketIndex idx (indexToBucketIndex g) := by
      intro hj
      refine hne (glob_inj idx g hb ?_)
      rw [hb]
      exact hj.symm
    exact List.getElem?_set_ne hjne
  · rw [if_neg hb]
    unfold slotAtB
    simp only [if_neg hb]

/-- On a well-formed state, every published slot holds a non-null value. -/
theorem slot_of_lt (s : State) (idx : Nat) (hwf : wf s) (h : idx < s.msize) :
    ∃ w, slotAt s idx = some w ∧ w ≠ 0 := by
  obtain ⟨hW1, hW2, hW3⟩ := hwf
  have hsome := hW2 idx h
  rcases hbk : s.buckets (indexToBucketIndex idx) with _ | bk
  · rw [hbk] at hsome; simp [Option.isSome] at hsome
  have hlen := hW1 _ _ hbk
  have hj : indexToIntraBucketIndex idx (indexToBucketIndex idx) < bk.length := by
    rw [hlen]; exact intra_lt idx
  rcases hv : bk[indexToIntraBucketIndex idx (indexToBucketIndex idx)]? with _ | w
  · rw [List.getElem?_eq_none_iff] at hv
    omega
  · refine ⟨w, ?_, ?_⟩
    · unfold slotAt slotAtB
      simp [hbk, hv]
    · have h3 := (hW3 _ _ _ _ hbk hv).mp
      rw [glob_recover idx] at h3
      exact h3 h

/-- On a well-formed state, a slot beyond `m_size` whose bucket is
allocated still holds the `calloc` zero. -/
theorem slot_of_ge (s : State) (idx : Nat) (hwf : wf s) (h : s.msize ≤ idx)
    (bk : List Nat) (hbk : s.buckets (indexToBucketIndex idx) = some bk) :
    bk[indexToIntraBucketIndex idx (indexToBucketIndex idx)]? = some 0 := by
  obtain ⟨hW1, hW2, hW3⟩ := hwf
  have hlen := hW1 _ _ hbk
  have hj : indexToIntraBucketIndex idx (indexToBucketIndex idx) < bk.length := by
    rw [hlen]; exact intra_lt idx
  rcases hv : bk[indexToIntraBucketIndex idx (indexToBucketIndex idx)]? with _ | w
  · rw [List.getElem?_eq_none_iff] at hv
    omega
  · have h3 := hW3 _ _ _ _ hbk hv
    rw [glob_recover idx] at h3
    have hw : w = 0 := by
      by_contra hw
      exact absurd (h3.mpr hw) (by omega)
    rw [hw]

theorem wf_init : wf State.init := by
  refine ⟨?_, ?_, ?_⟩ <;> intro b <;> simp [State.init]

/-! ## Specification of `append`. -/

/-- Master lemma for the successful slot-CAS of `append`: `buck` is the
bucket (freshly allocated or pre-existing) into which the value is stored. -/
theorem append_store (s : State) (v : Nat) (buck : List Nat)
    (hwf : wf s) (hv : v ≠ 0)
    (hlen : buck.length = 2 ^ indexToBucketIndex s.msize)
    (hcomp : append s v = some (s.msize,
      { buckets := fun i => if i = indexToBucketIndex s.msize then
          some (buck.set
            (indexToIntraBucketIndex s.msize (indexToBucketIndex s.msize)) v)
        else s.buckets i,
        msize := s.msize + 1,
        rc := rcInc s.rc v }))
    (hW3buck : ∀ j' v', buck[j']? = some v' →
      (2 ^ indexToBucketIndex s.msize - 1 + j' < s.msize ↔ v' ≠ 0))
    (hprev : ∀ idx, idx < s.msize →
      indexToBucketIndex idx = indexToBucketIndex s.msize →
      buck[indexToIntraBucketIndex idx (indexToBucketIndex idx)]? = slotAt s idx) :
    ∃ s', append s v = some (size s, s') ∧
      s'.msize = s.msize + 1 ∧ s'.rc = rcInc s.rc v ∧
      slotAt s' s.msize = some v ∧
      (∀ idx, idx < s.msize → slotAt s' idx = slotAt s idx) ∧ wf s' := by
  obtain ⟨hW1, hW2, hW3⟩ := hwf
  have hjlt := intra_lt s.msize
  have hglob := glob_recover s.msize
  refine ⟨_, hcomp, rfl, rfl, ?_, ?_, ?_, ?_, ?_⟩
  · -- the new slot holds v
    exact slotAtB_upd_self s.buckets s.msize v buck (by omega)
  · -- previously published slots unchanged
    intro idx hidx
    show slotAtB _ idx = slotAt s idx
    dsimp only
    rw [slotAtB_upd_other s.buckets s.msize v idx buck (by omega)]
    by_cases hb : indexToBucketIndex idx = indexToBucketIndex s.msize
    · rw [if_pos hb]
      exact hprev idx hidx hb
    · rw [if_neg hb]
      rfl
  · -- W1
    intro b bk hbk
    dsimp only at hbk
    by_cases hb : b = indexToBucketIndex s.msize
    · subst hb
      rw [if_pos rfl] at hbk
      cases hbk
      simp [hlen]
    · rw [if_neg hb] at hbk
      exact hW1 b bk hbk
  · -- W2
    intro idx hidx
    dsimp only at hidx ⊢
    by_cases hb : indexToBucketIndex idx = indexToBucketIndex s.msize
    · simp [hb]
    · simp only [if_neg hb]
      have hne : idx ≠ s.msize := fun h => hb (by rw [h])
      exact hW2 idx (by omega)
  · -- W3
    intro b bk j w hbk hjw
    dsimp only at hbk ⊢
    by_cases hb : b = indexToBucketIndex s.msize
    · subst hb
      rw [if_pos rfl] at hbk
      cases hbk
      have hjlen : j < buck.length := by
        by_contra hge
        rw [List.getElem?_eq_none (by simp; omega)] at hjw
        cases hjw
      by_cases hj : j = indexToIntraBucketIndex s.msize (indexToBucketIndex s.msize)
      · subst hj
        rw [List.getElem?_set_self (by omega)] at hjw
        cases hjw
        constructor
        · intro _; exact hv
        · intro _; omega
      · rw [List.getElem?_set_ne (fun h => hj h.symm)] at hjw
        have h3 := hW3buck j w hjw
        have hgj : 2 ^ indexToBucketIndex s.msize - 1 + j ≠ s.msize := by
          intro heq
          have hbg := bucketIndex_glob (indexToBucketIndex s.msize) j (by omega)
          rw [heq] at hbg
          exact hj hbg.2.symm
        constructor
        · intro hlt; exact h3.mp (by omega)
        · intro hw; have := h3.mpr hw; omega
    · rw [if_neg hb] at hbk
      have h3 := hW3 b bk j w hbk hjw
      have hjlen : j < bk.length := by
        by_contra hge
        rw [List.getElem?_eq_none (by omega)] at hjw
        cases hjw
      have hgj : 2 ^ b - 1 + j ≠ s.msize := by
        intro heq
        have hbg := bucketIndex_glob b j (by rw [← hW1 b bk hbk]; omega)
        rw [heq] at hbg
        exact hb hbg.1.symm
      constructor
      · intro hlt; exact h3.mp (by omega)
      · intro hw; have := h3.mpr hw; omega

/-- On a well-formed state, `append` of a non-null value succeeds: it
returns the old size, increments `m_size` by one, bumps the value's
refcount, publishes the value in the new slot, leaves all previously
published slots unchanged, and preserves well-formedness. -/
theorem append_spec (s : State) (v : Nat) (hwf : wf s) (hv : v ≠ 0) :
    ∃ s', append s v = some (size s, s') ∧
      s'.msize = s.msize + 1 ∧ s'.rc = rcInc s.rc v ∧
      slotAt s' s.msize = some v ∧
      (∀ idx, idx < s.msize → slotAt s' idx = slotAt s idx) ∧ wf s' := by
  obtain ⟨hW1, hW2, hW3⟩ := hwf
  rcases hbk : s.buckets (indexToBucketIndex s.msize) with _ | bk
  · -- the bucket is not yet allocated: a fresh zeroed bucket is installed
    have hnotin : ∀ j, j < 2 ^ indexToBucketIndex s.msize →
        ¬(2 ^ indexToBucketIndex s.msize - 1 + j < s.msize) := by
      intro j hj hlt
      have hbg := bucketIndex_glob (indexToBucketIndex s.msize) j hj
      have hsome := hW2 _ hlt
      rw [hbg.1, hbk] at hsome
      simp [Option.isSome] at hsome
    refine append_store s v (List.replicate (2 ^ indexToBucketIndex s.msize) 0)
      ⟨hW1, hW2, hW3⟩ hv (by simp) ?_ ?_ ?_
    · simp only [append, hbk, List.getElem?_replicate_of_lt (intra_lt s.msize)]
    · intro j w hjw
      rw [List.getElem?_replicate] at hjw
      by_cases hj : j < 2 ^ indexToBucketIndex s.msize
      · rw [if_pos hj] at hjw
        cases hjw
        simp only [ne_eq, not_true_eq_false, iff_false]
        exact hnotin j hj
      · rw [if_neg hj] at hjw
        cases hjw
    · intro idx hidx hb
      have hsome := hW2 idx hidx
      rw [hb, hbk] at hsome
      simp [Option.isSome] at hsome
  · -- the bucket exists; its slot at the insertion point still holds 0
    have hslot0 := slot_of_ge s s.msize ⟨hW1, hW2, hW3⟩ (Nat.le_refl _) bk hbk
    refine append_store s v bk ⟨hW1, hW2, hW3⟩ hv (hW1 _ _ hbk) ?_ ?_ ?_
    · simp only [append, hbk, hslot0]
    · intro j w hjw
      exact hW3 _ _ _ _ hbk hjw
    · intro idx hidx hb
      unfold slotAt slotAtB
      rw [hb, hbk]

/-! ## Specification of `read` and `write`. -/

/-- On a well-formed state, an in-bounds `read` succeeds, returns the
(non-null) stored value with its refcount bumped, and brackets the access
in the sensitive section. -/
theorem read_spec (s : State) (idx : Nat) (hwf : wf s) (h : idx < s.msize) :
    ∃ w, slotAt s idx = some w ∧ w ≠ 0 ∧
      read s idx = (.ok w, { s with rc := rcInc s.rc w },
        [.enterSS, .rcIncEv w, .leaveSS]) := by
  obtain ⟨w, hsl, hw⟩ := slot_of_lt s idx hwf h
  refine ⟨w, hsl, hw, ?_⟩
  have hnle : ¬s.msize ≤ idx := by omega
  simp only [read, if_neg hnle, hsl]

/-- On a well-formed state, an in-bounds `write` of a non-null value
succeeds: it swaps the slot to the new value, bumps the new value's
refcount, waits on the sensitive section and drops the old (non-null)
value's refcount, leaves every other slot unchanged, keeps `m_size`, and
preserves well-formedness. -/
theorem write_spec (s : State) (idx v : Nat) (hwf : wf s) (hv : v ≠ 0)
    (h : idx < s.msize) :
    ∃ old s', slotAt s idx = some old ∧ old ≠ 0 ∧
      write s idx v = (.ok, s',
        [.rcIncEv v, .slotStore idx v, .waitSS, .rcDecEv old]) ∧
      s'.msize = s.msize ∧ s'.rc = rcDec (rcInc s.rc v) old ∧
      slotAt s' idx = some v ∧
      (∀ i, i ≠ idx → slotAt s' i = slotAt s i) ∧ wf s' := by
  obtain ⟨hW1, hW2, hW3⟩ := hwf
  obtain ⟨old, hsl, hold⟩ := slot_of_lt s idx ⟨hW1, hW2, hW3⟩ h
  rcases hbk : s.buckets (indexToBucketIndex idx) with _ | bk
  · unfold slotAt slotAtB at hsl
    rw [hbk] at hsl
    cases hsl
  have hslot : bk[indexToIntraBucketIndex idx (indexToBucketIndex idx)]? = some old := by
    unfold slotAt slotAtB at hsl
    rw [hbk] at hsl
    exact hsl
  have hlen := hW1 _ _ hbk
  have hjlt : indexToIntraBucketIndex idx (indexToBucketIndex idx) < bk.length := by
    rw [hlen]; exact intra_lt idx
  have hnle : ¬s.msize ≤ idx := by omega
  refine ⟨old,
    { buckets := fun i => if i = indexToBucketIndex idx then
        some (bk.set (indexToIntraBucketIndex idx (indexToBucketIndex idx)) v)
      else s.buckets i,
      msize := s.msize,
      rc := rcDec (rcInc s.rc v) old },
    hsl, hold, ?_, rfl, rfl, ?_, ?_, ?_, ?_, ?_⟩
  · -- the computation
    simp only [write, if_neg hnle, hbk, hslot, if_neg hold]
    rfl
  · -- the written slot
    exact slotAtB_upd_self s.buckets idx v bk hjlt
  · -- all other slots unchanged
    intro i hi
    show slotAtB _ i = slotAt s i
    dsimp only
    rw [slotAtB_upd_other s.buckets idx v i bk hi]
    by_cases hb : indexToBucketIndex i = indexToBucketIndex idx
    · rw [if_pos hb]
      unfold slotAt slotAtB
      rw [hb, hbk]
    · rw [if_neg hb]
      rfl
  · -- W1
    intro b bk' hbk'
    dsimp only at hbk'
    by_cases hb : b = indexToBucketIndex idx
    · subst hb
      rw [if_pos rfl] at hbk'
      cases hbk'
      simp [hlen]
    · rw [if_neg hb] at hbk'
      exact hW1 b bk' hbk'
  · -- W2
    intro i hi
    dsimp only at hi ⊢
    by_cases hb : indexToBucketIndex i = indexToBucketIndex idx
    · simp [hb]
    · simp only [if_neg hb]
      exact hW2 i hi
  · -- W3
    intro b bk' j w hbk' hjw
    dsimp only at hbk' ⊢
    by_cases hb : b = indexToBucketIndex idx
    · subst hb
      rw [if_pos rfl] at hbk'
      cases hbk'
      by_cases hj : j = indexToIntraBucketIndex idx (indexToBucketIndex idx)
      · subst hj
        rw [List.getElem?_set_self hjlt] at hjw
        cases hjw
        have := glob_recover idx
        constructor
        · intro _; exact hv
        · intro _; omega
      · rw [List.getElem?_set_ne (fun hx => hj hx.symm)] at hjw
        exact hW3 _ _ _ _ hbk hjw
    · rw [if_neg hb] at hbk'
      exact hW3 _ _ _ _ hbk' hjw

/-! ## Refcount accounting. -/

theorem rcDec_rcInc (rc : Nat → Int) (v : Nat) : rcDec (rcInc rc v) v = rc := by
  funext w
  simp only [rcDec, rcInc]
  by_cases h : w = v <;> simp [h]

/-- The count over `range n` of a predicate changed at one position. -/
theorem countP_update (n idx : Nat) (hidx : idx < n) (f g : Nat → Bool)
    (hfg : ∀ i, i ≠ idx → f i = g i) :
    (List.range n).countP f + (if g idx then 1 else 0) =
      (List.range n).countP g + (if f idx then 1 else 0) := by
  induction n with
  | zero => omega
  | succ n ih =>
    rw [List.range_succ, List.countP_append, List.countP_append]
    by_cases hn : idx = n
    · subst hn
      have hcongr : (List.range idx).countP f = (List.range idx).countP g := by
        refine List.countP_congr ?_
        intro x hx
        rw [hfg x (by rw [List.mem_range] at hx; omega)]
      rw [hcongr]
      simp only [List.countP_cons, List.countP_nil]
      omega
    · have hfn : f n = g n := hfg n (fun hx => hn hx.symm)
      have := ih (by omega)
      simp only [List.countP_cons, List.countP_nil, hfn]
      omega

theorem slotCount_init (v : Nat) : slotCount State.init v = 0 := by
  simp [slotCount, State.init, size]

theorem rcOk_init : rcOk State.init := by
  intro v
  rw [slotCount_init]
  rfl

/-- Slot counting after `append`: one more occurrence of the appended
value, everything else unchanged. -/
theorem slotCount_append (s s' : State) (v : Nat)
    (hm : s'.msize = s.msize + 1)
    (hnew : slotAt s' s.msize = some v)
    (hpres : ∀ idx, idx < s.msize → slotAt s' idx = slotAt s idx) (w : Nat) :
    slotCount s' w = slotCount s w + (if v = w then 1 else 0) := by
  unfold slotCount size
  rw [hm, List.range_succ, List.countP_append]
  have hcongr : (List.range s.msize).countP (fun i => slotAt s' i == some w) =
      (List.range s.msize).countP (fun i => slotAt s i == some w) := by
    refine List.countP_congr ?_
    intro x hx
    rw [List.mem_range] at hx
    rw [hpres x hx]
  rw [hcongr]
  simp only [List.countP_cons, List.countP_nil, hnew]
  by_cases hw : v = w <;> simp [hw]

/-- Slot counting after `write`: the old value loses one occurrence, the
new value gains one. -/
theorem slotCount_write (s s' : State) (idx v old w : Nat)
    (hm : s'.msize = s.msize) (hidx : idx < s.msize)
    (hold : slotAt s idx = some old)
    (hnew : slotAt s' idx = some v)
    (hpres : ∀ i, i ≠ idx → slotAt s' i = slotAt s i) :
    slotCount s' w + (if old = w then 1 else 0) =
      slotCount s w + (if v = w then 1 else 0) := by
  unfold slotCount size
  rw [hm]
  have hcu := countP_update s.msize idx hidx
    (fun i => slotAt s' i == some w) (fun i => slotAt s i == some w)
    (fun i hi => by dsimp only; rw [hpres i hi])
  simp only [] at hcu
  simp only [hold, hnew] at hcu
  simpa using hcu

/-- One client step preserves well-formedness and refcount accounting. -/
theorem step_preserves (s : State) (c : Cmd) (hv : ValidCmd c)
    (hwf : wf s) (hrc : rcOk s) : wf (step s c) ∧ rcOk (step s c) := by
  cases c with
  | app v =>
    obtain ⟨s', hcomp, hm, hrc', hnew, hpres, hwf'⟩ := append_spec s v hwf hv
    simp only [step, hcomp]
    refine ⟨hwf', ?_⟩
    intro w
    have hcount := slotCount_append s s' v hm hnew hpres w
    have hsrc := hrc w
    rw [hrc']
    simp only [rcInc]
    rcases eq_or_ne w v with hwv | hwv
    · rw [if_pos hwv]
      rw [if_pos hwv.symm] at hcount
      omega
    · rw [if_neg hwv]
      rw [if_neg (fun hx => hwv hx.symm)] at hcount
      omega
  | rdRel idx =>
    by_cases h : idx < s.msize
    · obtain ⟨w, hsl, hw, hread⟩ := read_spec s idx hwf h
      simp only [step, hread]
      have hs : State.mk s.buckets s.msize (rcDec (rcInc s.rc w) w) = s := by
        rw [rcDec_rcInc]
      rw [hs]
      exact ⟨hwf, hrc⟩
    · have hnle : s.msize ≤ idx := by omega
      simp only [step, read, if_pos hnle]
      exact ⟨hwf, hrc⟩
  | wr idx v =>
    by_cases h : idx < s.msize
    · obtain ⟨old, s', hsl, hold, hcomp, hm, hrc', hnew, hpres, hwf'⟩ :=
        write_spec s idx v hwf hv h
      simp only [step, hcomp]
      refine ⟨hwf', ?_⟩
      intro w
      have hcount := slotCount_write s s' idx v old w hm h hsl hnew hpres
      have hsrc := hrc w
      rw [hrc']
      simp only [rcDec, rcInc]
      rcases eq_or_ne w old with hwo | hwo <;> rcases eq_or_ne w v with hwv | hwv
      · rw [if_pos hwo, if_pos hwv]
        rw [if_pos hwo.symm, if_pos hwv.symm] at hcount
        omega
      · rw [if_pos hwo, if_neg hwv]
        rw [if_pos hwo.symm, if_neg (fun hx => hwv hx.symm)] at hcount
        omega
      · rw [if_neg hwo, if_pos hwv]
        rw [if_neg (fun hx => hwo hx.symm), if_pos hwv.symm] at hcount
        omega
      · rw [if_neg hwo, if_neg hwv]
        rw [if_neg (fun hx => hwo hx.symm), if_neg (fun hx => hwv hx.symm)] at hcount
        omega
    · have hnle : s.msize ≤ idx := by omega
      simp only [step, write, if_pos hnle]
      exact ⟨hwf, hrc⟩

/-- Every sequentially reachable state is well-formed with exact refcount
accounting. -/
theorem run_inv (cs : List Cmd) (h : ∀ c ∈ cs, ValidCmd c) :
    wf (runTrace cs) ∧ rcOk (runTrace cs) := by
  suffices hgen : ∀ (cs : List Cmd) (s : State), wf s → rcOk s →
      (∀ c ∈ cs, ValidCmd c) → wf (cs.foldl step s) ∧ rcOk (cs.foldl step s) by
    exact hgen cs State.init wf_init rcOk_init h
  intro cs
  induction cs with
  | nil => exact fun s hwf hrc _ => ⟨hwf, hrc⟩
  | cons c cs ih =>
    intro s hwf hrc hv
    simp only [List.foldl_cons]
    obtain ⟨hwf1, hrc1⟩ := step_preserves s c (hv c (by simp)) hwf hrc
    exact ih _ hwf1 hrc1 (fun c1 hc1 => hv c1 (by simp [hc1]))

theorem slotCount_eq_countBelow (s : State) (v : Nat) :
    slotCount s v = countBelow s s.msize v := rfl

/-- On a well-formed state, the destructor runs to completion and removes
exactly one refcount per occupied slot (each slot's value is read — one
increment — and then decremented twice). -/
theorem destroy_spec (s : State) (hwf : wf s) :
    ∃ s', destroy s = some s' ∧ s'.msize = s.msize ∧
      ∀ v, s'.rc v = s.rc v - (countBelow s s.msize v : Int) := by
  have hloop : ∀ k, k ≤ s.msize → ∃ st,
      (List.range k).foldlM (fun (st : State) (i : Nat) =>
        match read st i with
        | (.ok val, st1, _) =>
          some { st1 with rc := rcDec (rcDec st1.rc val) val }
        | _ => none) s = some st ∧
      st.buckets = s.buckets ∧ st.msize = s.msize ∧
      ∀ v, st.rc v = s.rc v - (countBelow s k v : Int) := by
    intro k
    induction k with
    | zero =>
      intro _
      exact ⟨s, rfl, rfl, rfl, fun v => by simp [countBelow]⟩
    | succ k ih =>
      intro hk
      obtain ⟨st, hfold, hbks, hms, hrc⟩ := ih (by omega)
      obtain ⟨w, hsl, hw⟩ := slot_of_lt s k hwf (by omega)
      have hslst : slotAt st k = some w := by
        unfold slotAt
        rw [hbks]
        exact hsl
      have hnle : ¬st.msize ≤ k := by omega
      have hread : read st k = (.ok w, { st with rc := rcInc st.rc w },
          [.enterSS, .rcIncEv w, .leaveSS]) := by
        simp only [read, if_neg hnle, hslst]
      refine ⟨{ st with rc := rcDec (rcDec (rcInc st.rc w) w) w }, ?_, hbks, hms, ?_⟩
      · rw [List.range_succ, List.foldlM_append, hfold]
        simp only [Option.bind_eq_bind, Option.some_bind, List.foldlM_cons,
          List.foldlM_nil, hread]
        rfl
      · intro v
        have hcnt : countBelow s (k + 1) v =
            countBelow s k v + (if w = v then 1 else 0) := by
          unfold countBelow
          rw [List.range_succ, List.countP_append]
          simp only [List.countP_cons, List.countP_nil, hsl]
          by_cases hwv : w = v <;> simp [hwv]
        have hst := hrc v
        simp only [rcDec, rcInc]
        rcases eq_or_ne v w with hvw | hvw
        · subst hvw
          rw [if_pos rfl, if_pos rfl, if_pos rfl]
          rw [hcnt, if_pos rfl]
          push_cast
          omega
        · rw [if_neg hvw, if_neg hvw, if_neg hvw]
          rw [hcnt, if_neg (fun hx => hvw hx.symm)]
          push_cast
          omega
  obtain ⟨st, hfold, _, hms, hrc⟩ := hloop s.msize (Nat.le_refl _)
  refine ⟨{ st with buckets := fun _ => none }, ?_, hms, hrc⟩
  unfold destroy
  rw [hfold]
  rfl

/-! ## The claims. -/

/-- C1: in a sequential execution on a well-formed vector of size `s`,
`append(val)` with a non-null `val` returns `s`; afterwards `size()`
equals `s + 1` (each append increments the size by exactly one) and
`read(s)` returns `val`. -/
theorem claim1_append_publishes (s : State) (v : Nat) (hwf : wf s)
    (hv : v ≠ 0) :
    ∃ s', append s v = some (size s, s') ∧ size s' = size s + 1 ∧
      (read s' (size s)).1 = .ok v := by
  obtain ⟨s', hcomp, hm, _, hnew, _, hwf'⟩ := append_spec s v hwf hv
  refine ⟨s', hcomp, by simp [size, hm], ?_⟩
  obtain ⟨w, hsl, hw, hread⟩ := read_spec s' s.msize hwf' (by rw [hm]; omega)
  rw [hnew] at hsl
  injection hsl with hvw
  subst hvw
  show (read s' s.msize).1 = RdRes.ok v
  rw [hread]

theorem claim1_witness :
    (7 : Nat) ≠ 0 ∧
    ∃ s', append (runTrace [Cmd.app 5]) 7 =
        some (size (runTrace [Cmd.app 5]), s') ∧
      size s' = size (runTrace [Cmd.app 5]) + 1 ∧
      (read s' (size (runTrace [Cmd.app 5]))).1 = .ok 7 :=
  ⟨by decide,
   claim1_append_publishes (runTrace [Cmd.app 5]) 7
     (run_inv [Cmd.app 5] (by decide)).1 (by decide)⟩

/-- C2: `read(idx)` reports a bounds error exactly when `idx ≥ size()`,
and `write(idx, v)` likewise; in particular `read(size())` and
`write(size(), v)` fail with the bounds error while, on a non-empty
well-formed vector, `read(size()-1)` succeeds and returns the stored
value. -/
theorem claim2_bounds_enforcement (s : State) (idx v : Nat) (hwf : wf s) :
    ((read s idx).1 = .boundsError ↔ size s ≤ idx) ∧
    ((write s idx v).1 = .boundsError ↔ size s ≤ idx) ∧
    (read s (size s)).1 = .boundsError ∧
    (write s (size s) v).1 = .boundsError ∧
    (0 < size s →
      ∃ w, (read s (size s - 1)).1 = .ok w ∧ slotAt s (size s - 1) = some w) := by
  have hread : ∀ i, (read s i).1 = .boundsError ↔ size s ≤ i := by
    intro i
    by_cases h : s.msize ≤ i
    · simp [read, h, size]
    · rcases hsl : slotAt s i with _ | w <;> simp [read, h, hsl, size]
  have hwrite : ∀ i v1, (write s i v1).1 = .boundsError ↔ size s ≤ i := by
    intro i v1
    by_cases h : s.msize ≤ i
    · simp [write, h, size]
    · rcases hbk : s.buckets (indexToBucketIndex i) with _ | bk
      · simp [write, h, hbk, size]
      · rcases hj : bk[indexToIntraBucketIndex i (indexToBucketIndex i)]? with _ | old
        · simp [write, h, hbk, hj, size]
        · simp [write, h, hbk, hj, size]
  refine ⟨hread idx, hwrite idx v, (hread _).mpr (Nat.le_refl _),
    (hwrite _ _).mpr (Nat.le_refl _), ?_⟩
  intro hpos
  obtain ⟨w, hsl, hw, hr⟩ := read_spec s (size s - 1) hwf (by
    simp only [size] at hpos ⊢
    omega)
  exact ⟨w, by rw [hr], hsl⟩

theorem claim2_witness :
    ((read (runTrace [Cmd.app 5, Cmd.app 7]) 1).1 = .boundsError ↔
      size (runTrace [Cmd.app 5, Cmd.app 7]) ≤ 1) ∧
    ((write (runTrace [Cmd.app 5, Cmd.app 7]) 1 9).1 = .boundsError ↔
      size (runTrace [Cmd.app 5, Cmd.app 7]) ≤ 1) ∧
    (read (runTrace [Cmd.app 5, Cmd.app 7])
      (size (runTrace [Cmd.app 5, Cmd.app 7]))).1 = .boundsError ∧
    (write (runTrace [Cmd.app 5, Cmd.app 7])
      (size (runTrace [Cmd.app 5, Cmd.app 7])) 9).1 = .boundsError ∧
    (0 < size (runTrace [Cmd.app 5, Cmd.app 7]) →
      ∃ w, (read (runTrace [Cmd.app 5, Cmd.app 7])
          (size (runTrace [Cmd.app 5, Cmd.app 7]) - 1)).1 = .ok w ∧
        slotAt (runTrace [Cmd.app 5, Cmd.app 7])
          (size (runTrace [Cmd.app 5, Cmd.app 7]) - 1) = some w) :=
  claim2_bounds_enforcement (runTrace [Cmd.app 5, Cmd.app 7]) 1 9
    (run_inv [Cmd.app 5, Cmd.app 7] (by decide)).1

/-- C4: for every slot index `idx` that can be published under the 32-bit
size counter (`idx + 1 < 2^32`, since a valid index is strictly below a
size the counter can hold), the bucket number is `⌊log₂(idx+1)⌋`, the
intra-bucket offset is `idx - (2^b - 1)` and lies below `2^b`, the bucket
number is below 32, and every bucket the vector allocates for bucket
number `i` has capacity `2^i`. -/
theorem claim4_index_mapping (idx : Nat) (h : idx + 2 ≤ 2 ^ 32) :
    indexToBucketIndex idx = Nat.log2 (idx + 1) ∧
    indexToIntraBucketIndex idx (indexToBucketIndex idx) =
      idx - (2 ^ indexToBucketIndex idx - 1) ∧
    indexToIntraBucketIndex idx (indexToBucketIndex idx) <
      2 ^ indexToBucketIndex idx ∧
    indexToBucketIndex idx < kMaxBuckets ∧
    (∀ s v r s', wf s → v ≠ 0 → append s v = some (r, s') →
      ∀ b bk, s'.buckets b = some bk → bk.length = 2 ^ b) := by
  refine ⟨indexToBucketIndex_eq_log2 idx, rfl, intra_lt idx, ?_, ?_⟩
  · rw [indexToBucketIndex_eq_log2, kMaxBuckets]
    rw [Nat.log2_lt (Nat.succ_ne_zero idx)]
    omega
  · intro s v r s' hwf hv hcomp
    obtain ⟨s1, hcomp1, _, _, _, _, hwf1⟩ := append_spec s v hwf hv
    rw [hcomp1] at hcomp
    cases hcomp
    exact hwf1.1

theorem claim4_witness :
    (5 : Nat) + 2 ≤ 2 ^ 32 ∧
    (indexToBucketIndex 5 = Nat.log2 (5 + 1) ∧
      indexToIntraBucketIndex 5 (indexToBucketIndex 5) =
        5 - (2 ^ indexToBucketIndex 5 - 1) ∧
      indexToIntraBucketIndex 5 (indexToBucketIndex 5) <
        2 ^ indexToBucketIndex 5 ∧
      indexToBucketIndex 5 < kMaxBuckets ∧
      (∀ s v r s', wf s → v ≠ 0 → append s v = some (r, s') →
        ∀ b bk, s'.buckets b = some bk → bk.length = 2 ^ b)) :=
  ⟨by norm_num, claim4_index_mapping 5 (by norm_num)⟩

/-- C5: after any sequence of append/read/write commands (with non-null
values) in which the caller releases every reference returned by `read`,
the refcount of every value equals the number of occupied slots holding
it, and destroying the vector (which reads each slot and decrements its
value twice — once for the read, once for the stored reference) brings
every refcount back to exactly zero. -/
theorem claim5_refcount_conservation (cs : List Cmd)
    (h : ∀ c ∈ cs, ValidCmd c) :
    (∀ v, (runTrace cs).rc v = (slotCount (runTrace cs) v : Int)) ∧
    ∃ s', destroy (runTrace cs) = some s' ∧ ∀ v, s'.rc v = 0 := by
  obtain ⟨hwf, hrc⟩ := run_inv cs h
  refine ⟨hrc, ?_⟩
  obtain ⟨s', hd, hm, hrc'⟩ := destroy_spec _ hwf
  refine ⟨s', hd, fun v => ?_⟩
  have h1 := hrc v
  rw [slotCount_eq_countBelow] at h1
  rw [hrc' v, h1]
  omega

theorem claim5_witness :
    (∀ c ∈ [Cmd.app 5, Cmd.rdRel 0, Cmd.wr 0 7, Cmd.app 5], ValidCmd c) ∧
    ((∀ v, (runTrace [Cmd.app 5, Cmd.rdRel 0, Cmd.wr 0 7, Cmd.app 5]).rc v =
        (slotCount (runTrace [Cmd.app 5, Cmd.rdRel 0, Cmd.wr 0 7, Cmd.app 5]) v : Int)) ∧
      ∃ s', destroy (runTrace [Cmd.app 5, Cmd.rdRel 0, Cmd.wr 0 7, Cmd.app 5]) =
          some s' ∧ ∀ v, s'.rc v = 0) :=
  ⟨by decide,
   claim5_refcount_conservation [Cmd.app 5, Cmd.rdRel 0, Cmd.wr 0 7, Cmd.app 5]
     (by decide)⟩

/-- C10: a bounds failure is atomic — `write(idx, val)` with
`idx ≥ size()` throws before incrementing `val`'s refcount and before
touching any slot, and `read(idx)` with `idx ≥ size()` throws without
entering the sensitive section; both leave the state unchanged and
perform no observable effect. -/
theorem claim10_bounds_failures_atomic (s : State) (idx v : Nat)
    (h : size s ≤ idx) :
    write s idx v = (.boundsError, s, []) ∧
      read s idx = (.boundsError, s, []) := by
  have h1 : s.msize ≤ idx := h
  constructor
  · rw [write, if_pos h1]
  · rw [read, if_pos h1]

theorem claim10_witness :
    size (runTrace [Cmd.app 5]) ≤ 3 ∧
    (write (runTrace [Cmd.app 5]) 3 9 = (.boundsError, runTrace [Cmd.app 5], []) ∧
      read (runTrace [Cmd.app 5]) 3 = (.boundsError, runTrace [Cmd.app 5], [])) :=
  ⟨by decide, claim10_bounds_failures_atomic (runTrace [Cmd.app 5]) 3 9 (by decide)⟩

/-- C9: `leave()` decrements exactly the counter that `enter()`
incremented for the same thread (the one selected by the multiplicative
hash of the thread identity modulo N), so an `enter()` followed by a
`leave()` by the same thread restores all counters; and `appearsFree()`
returns true iff every one of the N counters currently reads zero. -/
theorem claim9_sensitive_section (ss : SensitiveSection) (tid : Nat)
    (hbound : ∀ i, ss.m_counts i < 2 ^ 32) :
    ((ss.enter tid).m_counts (ss.countIndex tid) =
      (ss.m_counts (ss.countIndex tid) + 1) % 2 ^ 32) ∧
    ((ss.leave tid).m_counts (ss.countIndex tid) =
      (ss.m_counts (ss.countIndex tid) + (2 ^ 32 - 1)) % 2 ^ 32) ∧
    (∀ j, j ≠ ss.countIndex tid →
      (ss.enter tid).m_counts j = ss.m_counts j ∧
      (ss.leave tid).m_counts j = ss.m_counts j) ∧
    (ss.enter tid).leave tid = ss ∧
    (ss.appearsFree = true ↔ ∀ i, i < ss.m_n → ss.m_counts i = 0) := by
  obtain ⟨n, cnt⟩ := ss
  refine ⟨by simp [SensitiveSection.enter], by simp [SensitiveSection.leave], ?_, ?_, ?_⟩
  · intro j hj
    constructor
    · simp only [SensitiveSection.enter]
      rw [if_neg hj]
    · simp only [SensitiveSection.leave]
      rw [if_neg hj]
  · simp only [SensitiveSection.enter, SensitiveSection.leave,
      SensitiveSection.countIndex]
    congr 1
    funext j
    by_cases hj : j = tid * 2654435761 % 2 ^ 64 % n
    · rw [if_pos hj, if_pos hj]
      have hb := hbound j
      simp only [SensitiveSection.m_counts] at hb ⊢
      omega
    · rw [if_neg hj, if_neg hj]
  · simp [SensitiveSection.appearsFree]

theorem claim9_witness :
    (∀ i, (SensitiveSection.create 128).m_counts i < 2 ^ 32) ∧
    (((SensitiveSection.create 128).enter 42).m_counts
        ((SensitiveSection.create 128).countIndex 42) =
      ((SensitiveSection.create 128).m_counts
        ((SensitiveSection.create 128).countIndex 42) + 1) % 2 ^ 32 ∧
    (((SensitiveSection.create 128).leave 42).m_counts
        ((SensitiveSection.create 128).countIndex 42) =
      ((SensitiveSection.create 128).m_counts
        ((SensitiveSection.create 128).countIndex 42) + (2 ^ 32 - 1)) % 2 ^ 32) ∧
    (∀ j, j ≠ (SensitiveSection.create 128).countIndex 42 →
      ((SensitiveSection.create 128).enter 42).m_counts j =
        (SensitiveSection.create 128).m_counts j ∧
      ((SensitiveSection.create 128).leave 42).m_counts j =
        (SensitiveSection.create 128).m_counts j) ∧
    ((SensitiveSection.create 128).enter 42).leave 42 =
      SensitiveSection.create 128 ∧
    ((SensitiveSection.create 128).appearsFree = true ↔
      ∀ i, i < (SensitiveSection.create 128).m_n →
        (SensitiveSection.create 128).m_counts i = 0)) :=
  ⟨fun i => by norm_num [SensitiveSection.create],
   claim9_sensitive_section (SensitiveSection.create 128) 42
     (fun i => by norm_num [SensitiveSection.create])⟩

theorem payloads_length (ser : Nat → List Nat) (vs : List Nat) :
    (payloads ser vs).length =
      (vs.map (fun v => 8 + (ser v).length)).sum := by
  induction vs with
  | nil => rfl
  | cons v vs ih =>
    simp only [payloads, List.length_append, encNat_length, List.map_cons,
      List.sum_cons, ih]

theorem offsetsOf_length (ser : Nat → List Nat) (vs : List Nat) (pos : Nat) :
    (offsetsOf ser vs pos).length = vs.length := by
  induction vs generalizing pos with
  | nil => rfl
  | cons v vs ih => simp [offsetsOf, ih]

/-- Every recorded offset lies between `pos` and `pos` plus the total
payload size. -/
theorem offsetsOf_bounds (ser : Nat → List Nat) (vs : List Nat) (pos : Nat) :
    ∀ o ∈ offsetsOf ser vs pos, pos ≤ o ∧ o ≤ pos + (payloads ser vs).length := by
  induction vs generalizing pos with
  | nil => simp [offsetsOf]
  | cons v vs ih =>
    intro o ho
    simp only [offsetsOf, List.mem_cons] at ho
    rcases ho with rfl | ho
    · simp
    · have := ih (pos + (8 + (ser v).length)) o ho
      simp only [payloads, List.length_append, encNat_length]
      omega

/-! ## Byte-slice lemmas. -/

theorem readBytes_concat (pre mid post : List Nat) :
    readBytes (pre ++ (mid ++ post)) pre.length mid.length = some mid := by
  unfold readBytes
  by_cases h0 : mid.length = 0
  · rw [if_pos h0]
    rw [List.length_eq_zero] at h0
    rw [h0]
  · rw [if_neg h0, if_pos (by simp)]
    rw [List.drop_left, List.take_left]

theorem readBytes_short (file : List Nat) (off n : Nat) (hn : n ≠ 0)
    (h : file.length < off + n) : readBytes file off n = none := by
  unfold readBytes
  rw [if_neg hn, if_neg (by omega)]

/-- Decoding a directory that was encoded wordwise. -/
theorem decodeWords_flatten (offs : List Nat) (h : ∀ o ∈ offs, o < 2 ^ 64) :
    decodeWords offs.length ((offs.map (encNat 8)).flatten) = offs := by
  induction offs with
  | nil => rfl
  | cons o offs ih =>
    have h8 : (encNat 8 o).length = 8 := encNat_length 8 o
    have h64 : o < 2 ^ 64 := h o (List.mem_cons_self o offs)
    simp only [List.map_cons, List.flatten_cons, List.length_cons]
    rw [decodeWords]
    have htake : (encNat 8 o ++ (offs.map (encNat 8)).flatten).take 8 =
        encNat 8 o := List.take_left' h8
    have hdrop : (encNat 8 o ++ (offs.map (encNat 8)).flatten).drop 8 =
        (offs.map (encNat 8)).flatten := List.drop_left' h8
    have h2 : o % 256 ^ 8 = o :=
      Nat.mod_eq_of_lt (lt_of_lt_of_le h64 (by norm_num))
    rw [htake, hdrop, bytesToNat_encNat, h2,
      ih (fun o1 ho1 => h o1 (List.mem_cons_of_mem o ho1))]

/-! ## Inversion and raw-success lemmas for `read`/`write`. -/

theorem read_ok_inv (s : State) (idx val : Nat) (s1 : State) (ev : List Event)
    (h : read s idx = (.ok val, s1, ev)) :
    idx < s.msize ∧ slotAt s idx = some val ∧
      s1 = { s with rc := rcInc s.rc val } := by
  unfold read at h
  split at h
  · simp at h
  next hle =>
    split at h
    · simp at h
    next w hsl =>
      simp only [Prod.mk.injEq, RdRes.ok.injEq] at h
      obtain ⟨hw, hs1, _⟩ := h
      subst hw
      exact ⟨by omega, hsl, hs1.symm⟩

/-- A `write` below `m_size` into an allocated bucket succeeds, regardless
of the full well-formedness invariant (used by `load`, whose freshly grown
state still holds zeros in published slots). -/
theorem write_raw (st : State) (idx v : Nat) (hidx : idx < st.msize)
    (bk : List Nat) (hbk : st.buckets (indexToBucketIndex idx) = some bk)
    (hW1 : ∀ b bk1, st.buckets b = some bk1 → bk1.length = 2 ^ b) :
    ∃ old st1 ev,
      bk[indexToIntraBucketIndex idx (indexToBucketIndex idx)]? = some old ∧
      write st idx v = (.ok, st1, ev) ∧
      st1.msize = st.msize ∧
      slotAt st1 idx = some v ∧
      (∀ j, j ≠ idx → slotAt st1 j = slotAt st j) ∧
      (∀ b bk1, st1.buckets b = some bk1 → bk1.length = 2 ^ b) ∧
      (∀ j, (st.buckets (indexToBucketIndex j)).isSome →
        (st1.buckets (indexToBucketIndex j)).isSome) := by
  have hlen := hW1 _ _ hbk
  have hjlt : indexToIntraBucketIndex idx (indexToBucketIndex idx) < bk.length := by
    rw [hlen]; exact intra_lt idx
  rcases hslot : bk[indexToIntraBucketIndex idx (indexToBucketIndex idx)]? with _ | old
  · rw [List.getElem?_eq_none_iff] at hslot
    omega
  have hnle : ¬st.msize ≤ idx := by omega
  refine ⟨old,
    { buckets := fun i => if i = indexToBucketIndex idx then
        some (bk.set (indexToIntraBucketIndex idx (indexToBucketIndex idx)) v)
      else st.buckets i,
      msize := st.msize,
      rc := if old = 0 then rcInc st.rc v else rcDec (rcInc st.rc v) old },
    [.rcIncEv v, .slotStore idx v] ++
      (if old = 0 then [] else [.waitSS, .rcDecEv old]),
    rfl, ?_, rfl, ?_, ?_, ?_, ?_⟩
  · simp only [write, if_neg hnle, hbk, hslot]
  · exact slotAtB_upd_self st.buckets idx v bk hjlt
  · intro j hj
    show slotAtB _ j = slotAt st j
    dsimp only
    rw [slotAtB_upd_other st.buckets idx v j bk hj]
    by_cases hb : indexToBucketIndex j = indexToBucketIndex idx
    · rw [if_pos hb]
      unfold slotAt slotAtB
      rw [hb, hbk]
    · rw [if_neg hb]
      rfl
  · intro b bk1 hbk1
    dsimp only at hbk1
    by_cases hb : b = indexToBucketIndex idx
    · subst hb
      rw [if_pos rfl] at hbk1
      cases hbk1
      simp [hlen]
    · rw [if_neg hb] at hbk1
      exact hW1 b bk1 hbk1
  · intro j hj
    dsimp only
    by_cases hb : indexToBucketIndex j = indexToBucketIndex idx
    · simp [hb]
    · simp only [if_neg hb]
      exact hj

/-! ## The `save` loop. -/

/-- Whatever `save`'s per-element loop does, it hands the state back
unchanged: each iteration's `read` increment is undone by the
`SCOPE_EXIT` decrement. -/
theorem saveElems_state (ser : Nat → List Nat) :
    ∀ (is : List Nat) (pos : Nat) (s s3 : State) (offs data : List Nat),
      saveElems ser is pos s = some (s3, offs, data) → s3 = s := by
  intro is
  induction is with
  | nil =>
    intro pos s s3 offs data h
    unfold saveElems at h
    simp only [Option.some.injEq, Prod.mk.injEq] at h
    exact h.1.symm
  | cons i is ih =>
    intro pos s s3 offs data h
    unfold saveElems at h
    split at h
    next val s1 ev hread =>
      obtain ⟨_, hsl, hs1⟩ := read_ok_inv s i val s1 ev hread
      dsimp only at h
      split at h
      next s4 offs1 data1 hrec =>
        simp only [Option.some.injEq, Prod.mk.injEq] at h
        have hs4 := ih _ _ _ _ _ hrec
        have hs2 : State.mk s1.buckets s1.msize (rcDec s1.rc val) = s := by
          subst hs1
          show State.mk s.buckets s.msize (rcDec (rcInc s.rc val) val) = s
          rw [rcDec_rcInc]
        rw [← h.1, hs4, hs2]
      · cases h
    · cases h

/-- On a well-formed state, the `save` loop over in-bounds indices
produces exactly the offsets and length-prefixed payloads of the stored
values, handing back the state unchanged. -/
theorem saveElems_eq (ser : Nat → List Nat) (s : State) :
    ∀ (is : List Nat), (∀ i ∈ is, i < s.msize ∧ ∃ w, slotAt s i = some w) →
      ∀ pos, saveElems ser is pos s =
        some (s, offsetsOf ser (is.map (fun i => (slotAt s i).getD 0)) pos,
          payloads ser (is.map (fun i => (slotAt s i).getD 0))) := by
  intro is
  induction is with
  | nil => intro _ pos; rfl
  | cons i is ih =>
    intro hmem pos
    obtain ⟨hlt, w, hsl⟩ := hmem i (List.mem_cons_self i is)
    have hnle : ¬s.msize ≤ i := by omega
    have hread : read s i = (.ok w, { s with rc := rcInc s.rc w },
        [.enterSS, .rcIncEv w, .leaveSS]) := by
      simp only [read, if_neg hnle, hsl]
    have hs2 : State.mk s.buckets s.msize (rcDec (rcInc s.rc w) w) = s := by
      rw [rcDec_rcInc]
    unfold saveElems
    rw [hread]
    dsimp only
    rw [hs2, ih (fun j hj => hmem j (List.mem_cons_of_mem i hj))]
    simp only [List.map_cons, offsetsOf, payloads, hsl, Option.getD_some]

theorem save_eq (ser : Nat → List Nat) (s : State) (hwf : wf s) :
    save ser s = (some (fileOf ser s), s) := by
  have hmem : ∀ i ∈ List.range s.msize, i < s.msize ∧ ∃ w, slotAt s i = some w := by
    intro i hi
    rw [List.mem_range] at hi
    obtain ⟨w, hsl, _⟩ := slot_of_lt s i hwf hi
    exact ⟨hi, w, hsl⟩
  simp only [save, size]
  rw [saveElems_eq ser s (List.range s.msize) hmem]
  rfl

/-! ## Locating each blob inside the saved image. -/

theorem readBytes_at (pre mid post : List Nat) (off n : Nat)
    (hoff : off = pre.length) (hn : n = mid.length) :
    readBytes (pre ++ (mid ++ post)) off n = some mid := by
  subst hoff hn
  exact readBytes_concat pre mid post

/-- The `k`-th recorded offset points at the length prefix of the `k`-th
blob, and the payload bytes follow it. -/
theorem blobAt (ser : Nat → List Nat) :
    ∀ (vs : List Nat) (k : Nat) (pre : List Nat), k < vs.length →
      (offsetsOf ser vs pre.length).getD k 0 + 8 + (ser (vs.getD k 0)).length ≤
        (pre ++ payloads ser vs).length ∧
      readBytes (pre ++ payloads ser vs)
          ((offsetsOf ser vs pre.length).getD k 0) 8 =
        some (encNat 8 (ser (vs.getD k 0)).length) ∧
      readBytes (pre ++ payloads ser vs)
          ((offsetsOf ser vs pre.length).getD k 0 + 8)
          (ser (vs.getD k 0)).length =
        some (ser (vs.getD k 0)) := by
  intro vs
  induction vs with
  | nil => intro k pre hk; simp at hk
  | cons v vs ih =>
    intro k pre hk
    match k with
    | 0 =>
      simp only [offsetsOf, List.getD_cons_zero, payloads]
      have hassoc : pre ++ ((encNat 8 (ser v).length ++ ser v) ++ payloads ser vs) =
          pre ++ (encNat 8 (ser v).length ++ (ser v ++ payloads ser vs)) := by
        simp [List.append_assoc]
      refine ⟨?_, ?_, ?_⟩
      · simp [encNat_length]
        omega
      · rw [hassoc]
        exact readBytes_at pre (encNat 8 (ser v).length) (ser v ++ payloads ser vs)
          pre.length 8 rfl (encNat_length 8 _).symm
      · have hassoc2 : pre ++ ((encNat 8 (ser v).length ++ ser v) ++ payloads ser vs) =
            (pre ++ encNat 8 (ser v).length) ++ (ser v ++ payloads ser vs) := by
          simp [List.append_assoc]
        rw [hassoc2]
        exact readBytes_at (pre ++ encNat 8 (ser v).length) (ser v)
          (payloads ser vs) (pre.length + 8) (ser v).length
          (by simp [encNat_length]) rfl
    | k + 1 =>
      have hk1 : k < vs.length := by simpa using hk
      have hpre : (pre ++ (encNat 8 (ser v).length ++ ser v)).length =
          pre.length + (8 + (ser v).length) := by
        simp [encNat_length]
      have := ih k (pre ++ (encNat 8 (ser v).length ++ ser v)) hk1
      rw [hpre] at this
      have hassoc : (pre ++ (encNat 8 (ser v).length ++ ser v)) ++ payloads ser vs =
          pre ++ payloads ser (v :: vs) := by
        simp only [payloads]
        simp [List.append_assoc]
      rw [hassoc] at this
      simpa only [offsetsOf, List.getD_cons_succ, payloads] using this

/-! ## `growUnsafe` and the `load` worker loop. -/

theorem bucketIndex_mono (j k : Nat) (h : j ≤ k) :
    indexToBucketIndex j ≤ indexToBucketIndex k := by
  rw [indexToBucketIndex_eq_log2, indexToBucketIndex_eq_log2]
  have h1 := Nat.log2_self_le (Nat.succ_ne_zero j)
  rw [Nat.le_log2 (Nat.succ_ne_zero k)]
  exact Nat.le_trans h1 (by omega)

theorem growUnsafe_init (sz : Nat) :
    ∃ s1, growUnsafe State.init sz = some s1 ∧ s1.msize = sz ∧
      (∀ b bk, s1.buckets b = some bk → bk.length = 2 ^ b) ∧
      (∀ j, j < sz → (s1.buckets (indexToBucketIndex j)).isSome) := by
  refine ⟨State.mk
    (fun i => if i ≤ indexToBucketIndex sz then some (List.replicate (2 ^ i) 0)
      else State.init.buckets i)
    sz State.init.rc, ?_, rfl, ?_, ?_⟩
  · unfold growUnsafe
    rw [if_neg (by simp [State.init])]
    rw [if_pos (by simp [State.init])]
  · intro b bk hbk
    dsimp only at hbk
    by_cases hb : b ≤ indexToBucketIndex sz
    · rw [if_pos hb] at hbk
      cases hbk
      simp
    · rw [if_neg hb] at hbk
      simp [State.init] at hbk
  · intro j hj
    dsimp only
    rw [if_pos (bucketIndex_mono j sz (by omega))]
    rfl

/-- The sequentialized worker loop of `load`: if every index in the list
is in bounds and the file holds, at the directory offset, a well-formed
length prefix and a payload the deserializer accepts, the loop completes,
writing each listed slot (and only those); `finalFilePtr` ends up set to
just past the last element's payload exactly when the loop processed the
last index. -/
theorem loadLoop_spec (des : List Nat → Option Nat) (F directory : List Nat)
    (sz : Nat) (e len : Nat → Nat) :
    ∀ (is : List Nat) (st : State) (fp0 : Option Nat),
      st.msize = sz →
      (∀ b bk, st.buckets b = some bk → bk.length = 2 ^ b) →
      (∀ j, j < sz → (st.buckets (indexToBucketIndex j)).isSome) →
      (∀ i ∈ is, i < sz ∧ len i < 2 ^ 64 ∧
        readBytes F (directory.getD i 0) 8 = some (encNat 8 (len i)) ∧
        ∃ P, readBytes F (directory.getD i 0 + 8) (len i) = some P ∧
          des P = some (e i)) →
      ∃ st' fp', loadLoop des F directory sz is st fp0 = .ok st' fp' ∧
        st'.msize = sz ∧
        (∀ j, j ∉ is → slotAt st' j = slotAt st j) ∧
        (∀ j, j ∈ is → slotAt st' j = some (e j)) ∧
        (((sz - 1) ∈ is →
          fp' = some (directory.getD (sz - 1) 0 + len (sz - 1) + 8)) ∧
         ((sz - 1) ∉ is → fp' = fp0)) := by
  intro is
  induction is with
  | nil =>
    intro st fp0 hms _ _ _
    exact ⟨st, fp0, rfl, hms, fun j _ => rfl, fun j hj => absurd hj (by simp),
      fun h => absurd h (by simp), fun _ => rfl⟩
  | cons i is ih =>
    intro st fp0 hms hW1 hsome hblob
    obtain ⟨hisz, hlen64, hL, P, hP, hdes⟩ := hblob i (List.mem_cons_self i is)
    rcases hbk : st.buckets (indexToBucketIndex i) with _ | bk
    · have hcontra := hsome i (by omega)
      rw [hbk] at hcontra
      simp [Option.isSome] at hcontra
    obtain ⟨old, st1, ev, _, hw, hm1, hnew, hpres, hW1a, hsomea⟩ :=
      write_raw st i (e i) (by omega) bk hbk hW1
    have henc : bytesToNat (encNat 8 (len i)) = len i := by
      rw [bytesToNat_encNat]
      exact Nat.mod_eq_of_lt (lt_of_lt_of_le hlen64 (by norm_num))
    obtain ⟨st', fp', hloop, hms', hpres', hset', hfp'⟩ :=
      ih st1 (if i = sz - 1 then some (directory.getD i 0 + len i + 8) else fp0)
        (by omega) hW1a
        (fun j hj => hsomea j (hsome j hj))
        (fun j hj => hblob j (List.mem_cons_of_mem i hj))
    have hcomp : loadLoop des F directory sz (i :: is) st fp0 = .ok st' fp' := by
      simp only [loadLoop, hL, henc, hP, hdes, hw]
      exact hloop
    refine ⟨st', fp', hcomp, hms', ?_, ?_, ?_, ?_⟩
    · intro j hj
      rw [hpres' j (fun hx => hj (List.mem_cons_of_mem i hx)),
        hpres j (fun hx => hj (by rw [hx]; exact List.mem_cons_self _ _))]
    · intro j hj
      rcases List.mem_cons.mp hj with rfl | hj1
      · by_cases hji : j ∈ is
        · exact hset' j hji
        · rw [hpres' j hji, hnew]
      · exact hset' j hj1
    · intro hmem
      rcases List.mem_cons.mp hmem with heq | hmem1
      · by_cases hin : (sz - 1) ∈ is
        · exact hfp'.1 hin
        · rw [hfp'.2 hin, if_pos heq.symm, heq]
      · exact hfp'.1 hmem1
    · intro hmem
      rw [hfp'.2 (fun hx => hmem (List.mem_cons_of_mem i hx)),
        if_neg (fun hx => hmem (by rw [hx]; exact List.mem_cons_self _ _))]

/-! ## The round-trip theorem. -/

theorem dirBytes_length (offs : List Nat) :
    ((offs.map (encNat 8)).flatten).length = 8 * offs.length := by
  induction offs with
  | nil => rfl
  | cons o offs ih =>
    simp only [List.map_cons, List.flatten_cons, List.length_append,
      encNat_length, List.length_cons, ih]
    omega

theorem elems_length (s : State) : (elems s).length = s.msize := by
  simp [elems]

theorem elems_getD (s : State) (i : Nat) (hi : i < s.msize) :
    (elems s).getD i 0 = (slotAt s i).getD 0 := by
  unfold elems
  rw [List.getD_eq_getElem?_getD, List.getElem?_map]
  simp [List.getElem?_range, hi]

theorem readBytes_at0 (mid post : List Nat) (n : Nat) (hn : n = mid.length) :
    readBytes (mid ++ post) 0 n = some mid := by
  subst hn
  unfold readBytes
  by_cases h0 : mid.length = 0
  · rw [if_pos h0]
    rw [List.length_eq_zero] at h0
    rw [h0]
  · rw [if_neg h0, if_pos (by simp)]
    rw [List.drop_zero, List.take_left]

theorem kMagic_enc : bytesToNat (encNat 4 kMagic) = kMagic := by
  rw [bytesToNat_encNat]
  norm_num [kMagic]

/-- C3: saving a well-formed vector holding elements `e0..eN-1` to a file
and loading that file into a fresh vector yields a vector of size `N`
whose `read(i)` returns exactly the element `read(i)` returns on the
original, for every `i < N` (for any serde policy satisfying the pure
round-trip contract, as long as the image fits the 64-bit offsets). -/
theorem claim3_save_load_roundtrip (ser : Nat → List Nat)
    (des : List Nat → Option Nat) (hserde : ∀ v, des (ser v) = some v)
    (s : State) (hwf : wf s)
    (hbig : 12 + 8 * s.msize + (payloads ser (elems s)).length < 2 ^ 64) :
    ∃ file s' fp, save ser s = (some file, s) ∧
      load des file State.init = .ok s' fp ∧
      size s' = size s ∧
      ∀ i, i < size s → ∃ w, (read s i).1 = .ok w ∧ (read s' i).1 = .ok w := by
  have hsz64 : s.msize < 2 ^ 64 := by omega
  have hsave := save_eq ser s hwf
  set sz := s.msize with hszdef
  set vals := elems s with hvals
  set offs := offsetsOf ser vals (12 + 8 * sz) with hoffs
  set dirBytes := (offs.map (encNat 8)).flatten with hdir
  set data := payloads ser vals with hdata
  have hfile : fileOf ser s =
      encNat 4 kMagic ++ (encNat 8 sz ++ (dirBytes ++ data)) := by
    simp [fileOf, List.append_assoc]
  have hoffslen : offs.length = sz := by
    rw [hoffs, offsetsOf_length, hvals, elems_length]
  have hdirlen : dirBytes.length = 8 * sz := by
    rw [hdir, dirBytes_length, hoffslen]
  -- header reads
  have h0 : readBytes (fileOf ser s) 0 4 = some (encNat 4 kMagic) := by
    rw [hfile]
    exact readBytes_at0 (encNat 4 kMagic) (encNat 8 sz ++ (dirBytes ++ data))
      4 (encNat_length 4 _).symm
  have hmagic : bytesToNat (encNat 4 kMagic) = kMagic := kMagic_enc
  have h4 : readBytes (fileOf ser s) 4 8 = some (encNat 8 sz) := by
    rw [hfile]
    exact readBytes_at (encNat 4 kMagic) (encNat 8 sz) (dirBytes ++ data)
      4 8 (encNat_length 4 _).symm (encNat_length 8 _).symm
  have hszval : bytesToNat (encNat 8 sz) = sz := by
    rw [bytesToNat_encNat]
    exact Nat.mod_eq_of_lt (lt_of_lt_of_le hsz64 (by norm_num))
  have h12 : readBytes (fileOf ser s) 12 (8 * sz) = some dirBytes := by
    have hassoc : fileOf ser s =
        (encNat 4 kMagic ++ encNat 8 sz) ++ (dirBytes ++ data) := by
      rw [hfile]; simp [List.append_assoc]
    rw [hassoc]
    exact readBytes_at (encNat 4 kMagic ++ encNat 8 sz) dirBytes data
      12 (8 * sz) (by simp [encNat_length]) hdirlen.symm
  have hoffs64 : ∀ o ∈ offs, o < 2 ^ 64 := by
    intro o ho
    have hob := offsetsOf_bounds ser vals (12 + 8 * sz) o ho
    rw [← hdata] at hob
    omega
  have hdecode : decodeWords sz dirBytes = offs := by
    rw [hdir, ← hoffslen]
    exact decodeWords_flatten offs hoffs64
  obtain ⟨s1, hgrow, hms1, hW1a, hsomea⟩ := growUnsafe_init sz
  -- per-element blob facts
  have hpre : fileOf ser s =
      (encNat 4 kMagic ++ encNat 8 sz ++ dirBytes) ++ payloads ser vals := by
    rw [hfile, hdata]; simp [List.append_assoc]
  have hprelen : (encNat 4 kMagic ++ encNat 8 sz ++ dirBytes).length =
      12 + 8 * sz := by
    simp [encNat_length, hdirlen]
    omega
  have hblob : ∀ i ∈ List.range sz, i < sz ∧
      (ser (vals.getD i 0)).length < 2 ^ 64 ∧
      readBytes (fileOf ser s) (offs.getD i 0) 8 =
        some (encNat 8 (ser (vals.getD i 0)).length) ∧
      ∃ P, readBytes (fileOf ser s) (offs.getD i 0 + 8)
          (ser (vals.getD i 0)).length = some P ∧
        des P = some (vals.getD i 0) := by
    intro i hi
    rw [List.mem_range] at hi
    have hklen : i < vals.length := by rw [hvals, elems_length]; omega
    have hb := blobAt ser vals i (encNat 4 kMagic ++ encNat 8 sz ++ dirBytes) hklen
    rw [hprelen] at hb
    rw [← hpre] at hb
    have hlenbound : (ser (vals.getD i 0)).length < 2 ^ 64 := by
      have h1 := hb.1
      have h2 : (fileOf ser s).length = 12 + 8 * sz + data.length := by
        rw [hfile]
        simp only [List.length_append, encNat_length, hdirlen]
        omega
      rw [h2] at h1
      omega
    exact ⟨hi, hlenbound, hb.2.1, ser (vals.getD i 0), hb.2.2,
      hserde (vals.getD i 0)⟩
  obtain ⟨st', fp', hloop, hms', hpres', hset', hfp'⟩ :=
    loadLoop_spec des (fileOf ser s) offs sz
      (fun i => vals.getD i 0) (fun i => (ser (vals.getD i 0)).length)
      (List.range sz) s1 none hms1 hW1a hsomea hblob
  refine ⟨fileOf ser s, st', fp', hsave, ?_, by rw [size, size, hms'], ?_⟩
  · simp only [load, h0, hmagic, h4, hszval, h12, hdecode, hgrow, ne_eq,
      not_true_eq_false, if_false]
    exact hloop
  · intro i hi
    have hi1 : i < s.msize := hi
    obtain ⟨w, hsl, hw, hread⟩ := read_spec s i hwf hi1
    have hei : vals.getD i 0 = w := by
      rw [hvals, elems_getD s i hi1, hsl]
      rfl
    have hslot' : slotAt st' i = some w := by
      have := hset' i (by rw [List.mem_range]; exact hi1)
      rw [hei] at this
      exact this
    have hnle : ¬st'.msize ≤ i := by rw [hms']; omega
    refine ⟨w, by rw [hread], ?_⟩
    simp only [read, if_neg hnle, hslot']

theorem readBytes_of_le (file : List Nat) (off n : Nat)
    (h : off + n ≤ file.length) :
    readBytes file off n = some ((file.drop off).take n) := by
  unfold readBytes
  by_cases hn : n = 0
  · subst hn
    rw [if_pos rfl]
    simp
  · rw [if_neg hn, if_pos h]

theorem readBytes_some_eq (file : List Nat) (off n : Nat) (L : List Nat)
    (hn : n ≠ 0) (h : readBytes file off n = some L) :
    L = (file.drop off).take n := by
  unfold readBytes at h
  rw [if_neg hn] at h
  split at h
  · exact (Option.some.inj h).symm
  · cases h

theorem growUnsafe_inv (s : State) (sz : Nat) (s1 : State)
    (h : growUnsafe s sz = some s1) : s.msize = 0 ∧ s1.msize = sz := by
  unfold growUnsafe at h
  split at h
  · cases h
  split at h
  · cases h
    exact ⟨by omega, rfl⟩
  · cases h

theorem write_msize (s : State) (idx v : Nat) :
    (write s idx v).2.1.msize = s.msize := by
  unfold write
  by_cases h : s.msize ≤ idx
  · rw [if_pos h]
  · rw [if_neg h]
    rcases hbk : s.buckets (indexToBucketIndex idx) with _ | bk
    · simp only [hbk]
    · simp only [hbk]
      rcases hj : bk[indexToIntraBucketIndex idx (indexToBucketIndex idx)]?
        with _ | old
      · simp only [hj]
      · simp only [hj]

theorem loadLoop_msize (des : List Nat → Option Nat) (F dir : List Nat)
    (sz : Nat) :
    ∀ (is : List Nat) (st : State) (fp : Option Nat),
      ((loadLoop des F dir sz is st fp).st).msize = st.msize := by
  intro is
  induction is with
  | nil => intro st fp; rfl
  | cons i is ih =>
    intro st fp
    unfold loadLoop
    rcases hL : readBytes F (dir.getD i 0) 8 with _ | L
    · simp only [hL]
      rfl
    simp only [hL]
    rcases hP : readBytes F (dir.getD i 0 + 8) (bytesToNat L) with _ | P
    · simp only [hP]
      rfl
    simp only [hP]
    rcases hd : des P with _ | val
    · simp only [hd]
      rfl
    simp only [hd]
    rcases hw : write st i val with ⟨res, st1, ev⟩
    have hm : st1.msize = st.msize := by
      have hx := write_msize st i val
      rw [hw] at hx
      exact hx
    rcases res with _ | _ | _
    · simp only [hw]
      rw [ih st1 _, hm]
    · simp only [hw]
      rfl
    · simp only [hw]
      rfl

/-- For every successful run of the worker loop, the final file pointer is
the input one if the last index was not processed, and points just past
the last element's payload if it was. -/
theorem loadLoop_fp (des : List Nat → Option Nat) (F dir : List Nat)
    (sz : Nat) :
    ∀ (is : List Nat) (st : State) (fp0 : Option Nat) (st' : State)
      (fp' : Option Nat),
      loadLoop des F dir sz is st fp0 = .ok st' fp' →
      (((sz - 1) ∉ is → fp' = fp0) ∧
       ((sz - 1) ∈ is → fp' = some (dir.getD (sz - 1) 0 +
         bytesToNat ((F.drop (dir.getD (sz - 1) 0)).take 8) + 8))) := by
  intro is
  induction is with
  | nil =>
    intro st fp0 st' fp' h
    unfold loadLoop at h
    simp only [LoadOutcome.ok.injEq] at h
    exact ⟨fun _ => h.2.symm, fun hmem => absurd hmem (by simp)⟩
  | cons i is ih =>
    intro st fp0 st' fp' h
    unfold loadLoop at h
    rcases hL : readBytes F (dir.getD i 0) 8 with _ | L
    · simp only [hL] at h
      cases h
    simp only [hL] at h
    rcases hP : readBytes F (dir.getD i 0 + 8) (bytesToNat L) with _ | P
    · simp only [hP] at h
      cases h
    simp only [hP] at h
    rcases hd : des P with _ | val
    · simp only [hd] at h
      cases h
    simp only [hd] at h
    rcases hw : write st i val with ⟨res, st1, ev⟩
    rcases res with _ | _ | _
    · simp only [hw] at h
      have hLeq : L = (F.drop (dir.getD i 0)).take 8 :=
        readBytes_some_eq F (dir.getD i 0) 8 L (by omega) hL
      have hih := ih st1 _ st' fp' h
      constructor
      · intro hnm
        have hni : i ≠ sz - 1 := fun hx =>
          hnm (by rw [← hx]; exact List.mem_cons_self _ _)
        rw [hih.1 (fun hx => hnm (List.mem_cons_of_mem i hx)),
          if_neg hni]
      · intro hmem
        rcases List.mem_cons.mp hmem with heq | hmem1
        · by_cases hin : (sz - 1) ∈ is
          · exact hih.2 hin
          · rw [hih.1 hin, if_pos heq.symm, heq, ← hLeq]
        · exact hih.2 hmem1
    · simp only [hw] at h
      cases h
    · simp only [hw] at h
      cases h

/-- C8 (amended): for every successful `load` of a file whose element
count `N` is at least 1, the final file position is
`offset[N-1] + sizeof(length prefix) + length of element N-1`.  (For
`N = 0` the loop never assigns `finalFilePtr`, which stays uninitialized —
see the counterexample.) -/
theorem claim8_final_position (des : List Nat → Option Nat) (file : List Nat)
    (s s' : State) (fp : Option Nat)
    (hok : load des file s = .ok s' fp) (hsz : 1 ≤ fileCount file) :
    fp = some (lastEntryOffset file + lastEntryLength file + 8) := by
  unfold load at hok
  rcases hmb : readBytes file 0 4 with _ | magicBytes
  · simp only [hmb] at hok
    cases hok
  simp only [hmb] at hok
  by_cases hmag : bytesToNat magicBytes ≠ kMagic
  · rw [if_pos hmag] at hok
    cases hok
  rw [if_neg hmag] at hok
  rcases hsb : readBytes file 4 8 with _ | szBytes
  · simp only [hsb] at hok
    cases hok
  simp only [hsb] at hok
  rcases hdb : readBytes file 12 (8 * bytesToNat szBytes) with _ | dirBytes
  · simp only [hdb] at hok
    cases hok
  simp only [hdb] at hok
  rcases hgrow : growUnsafe s (bytesToNat szBytes) with _ | s1
  · simp only [hgrow] at hok
    cases hok
  simp only [hgrow] at hok
  have hszeq : bytesToNat szBytes = fileCount file := by
    rw [readBytes_some_eq file 4 8 szBytes (by omega) hsb]
    rfl
  have hsz1 : (1 : Nat) ≤ bytesToNat szBytes := by
    rw [hszeq]
    exact hsz
  have hdireq : decodeWords (bytesToNat szBytes) dirBytes =
      fileDirectory file := by
    rw [readBytes_some_eq file 12 (8 * bytesToNat szBytes) dirBytes
      (by omega) hdb, hszeq]
    rfl
  have hfp := (loadLoop_fp des file
    (decodeWords (bytesToNat szBytes) dirBytes) (bytesToNat szBytes)
    (List.range (bytesToNat szBytes)) s1 none s' fp hok).2
    (by rw [List.mem_range]; omega)
  rw [hdireq, hszeq] at hfp
  rw [hfp]
  rfl

theorem claim8_counterexample :
    fileCount (encNat 4 kMagic ++ encNat 8 0) = 0 ∧
    (load desNat (encNat 4 kMagic ++ encNat 8 0) State.init).pos = some none := by
  constructor
  · decide
  · decide

theorem claim8_witness :
    1 ≤ fileCount
      ((save serNat (runTrace [Cmd.app 5, Cmd.app 700])).1.getD []) ∧
    ∃ s' fp, load desNat
        ((save serNat (runTrace [Cmd.app 5, Cmd.app 700])).1.getD [])
        State.init = .ok s' fp ∧
      fp = some (lastEntryOffset
          ((save serNat (runTrace [Cmd.app 5, Cmd.app 700])).1.getD []) +
        lastEntryLength
          ((save serNat (runTrace [Cmd.app 5, Cmd.app 700])).1.getD []) + 8) := by
  refine ⟨by decide, ?_⟩
  rcases hl : load desNat
      ((save serNat (runTrace [Cmd.app 5, Cmd.app 700])).1.getD [])
      State.init with ⟨s1, fp1⟩ | ⟨s1⟩ | ⟨s1⟩ | ⟨s1⟩ | ⟨s1⟩ | ⟨s1⟩
  · exact ⟨s1, fp1, rfl,
      claim8_final_position desNat _ State.init s1 fp1 hl (by decide)⟩
  all_goals {
    have hp : (load desNat
        ((save serNat (runTrace [Cmd.app 5, Cmd.app 700])).1.getD [])
        State.init).isOk = true := by decide
    rw [hl] at hp
    cases hp
  }

/-- C7: `load` fails with a bad-magic error when the leading 4 bytes do
not decode to `0x04081977`; every short read (`fileOp` transferring fewer
items than requested) is a hard error aborting the operation; and the
partially populated in-memory state is not rolled back (a concrete
truncated file leaves the vector grown to size 2 with element 0 already
written). -/
theorem claim7_load_error_semantics (des : List Nat → Option Nat)
    (file : List Nat) (s : State) :
    (∀ nFrobbed nData : Nat, fileOp nFrobbed nData = none ↔ nFrobbed ≠ nData) ∧
    (file.length < 4 → load des file s = .ioError s) ∧
    (4 ≤ file.length → bytesToNat ((file.drop 0).take 4) ≠ kMagic →
      load des file s = .badMagic s) ∧
    ((load desNat (((save serNat (runTrace [Cmd.app 5, Cmd.app 700])).1.getD
        []).dropLast) State.init).isIoError = true ∧
      ((load desNat (((save serNat (runTrace [Cmd.app 5, Cmd.app 700])).1.getD
        []).dropLast) State.init).st).msize = 2 ∧
      slotAt ((load desNat (((save serNat
        (runTrace [Cmd.app 5, Cmd.app 700])).1.getD []).dropLast)
        State.init).st) 0 = some 5) := by
  refine ⟨?_, ?_, ?_, by decide, by decide, by decide⟩
  · intro nFrobbed nData
    unfold fileOp
    by_cases h : nFrobbed ≠ nData
    · simp [h]
    · simp [h]
  · intro hshort
    unfold load
    rw [readBytes_short file 0 4 (by omega) (by omega)]
  · intro hlen hbad
    unfold load
    simp only [readBytes_of_le file 0 4 (by omega)]
    rw [if_pos hbad]

theorem claim7_witness :
    (∀ nFrobbed nData : Nat, fileOp nFrobbed nData = none ↔ nFrobbed ≠ nData) ∧
    (([1, 2, 3] : List Nat).length < 4 →
      load desNat [1, 2, 3] State.init = .ioError State.init) ∧
    (4 ≤ ([1, 2, 3] : List Nat).length →
      bytesToNat ((([1, 2, 3] : List Nat).drop 0).take 4) ≠ kMagic →
      load desNat [1, 2, 3] State.init = .badMagic State.init) ∧
    ((load desNat (((save serNat (runTrace [Cmd.app 5, Cmd.app 700])).1.getD
        []).dropLast) State.init).isIoError = true ∧
      ((load desNat (((save serNat (runTrace [Cmd.app 5, Cmd.app 700])).1.getD
        []).dropLast) State.init).st).msize = 2 ∧
      slotAt ((load desNat (((save serNat
        (runTrace [Cmd.app 5, Cmd.app 700])).1.getD []).dropLast)
        State.init).st) 0 = some 5) :=
  claim7_load_error_semantics desNat [1, 2, 3] State.init

theorem claim3_witness :
    (∀ v, desNat (serNat v) = some v) ∧
    (12 + 8 * (runTrace [Cmd.app 5, Cmd.app 700]).msize +
      (payloads serNat (elems (runTrace [Cmd.app 5, Cmd.app 700]))).length <
        2 ^ 64) ∧
    (∃ file s' fp,
      save serNat (runTrace [Cmd.app 5, Cmd.app 700]) =
        (some file, runTrace [Cmd.app 5, Cmd.app 700]) ∧
      load desNat file State.init = .ok s' fp ∧
      size s' = size (runTrace [Cmd.app 5, Cmd.app 700]) ∧
      ∀ i, i < size (runTrace [Cmd.app 5, Cmd.app 700]) →
        ∃ w, (read (runTrace [Cmd.app 5, Cmd.app 700]) i).1 = .ok w ∧
          (read s' i).1 = .ok w) :=
  ⟨desNat_serNat, by decide,
   claim3_save_load_roundtrip serNat desNat desNat_serNat
     (runTrace [Cmd.app 5, Cmd.app 700])
     (run_inv [Cmd.app 5, Cmd.app 700] (by decide)).1 (by decide)⟩

/-! ## Size monotonicity. -/

theorem append_some_msize (s : State) (v r : Nat) (s' : State)
    (h : append s v = some (r, s')) : s'.msize = s.msize + 1 := by
  unfold append at h
  dsimp only at h
  split at h
  · simp only [Option.some.injEq, Prod.mk.injEq] at h
    rw [← h.2]
  · cases h

theorem destroyFold_msize :
    ∀ (l : List Nat) (st res : State),
      l.foldlM (fun (st : State) (i : Nat) =>
        match read st i with
        | (.ok val, st1, _) =>
          some { st1 with rc := rcDec (rcDec st1.rc val) val }
        | _ => none) st = some res → res.msize = st.msize := by
  intro l
  induction l with
  | nil =>
    intro st res h
    simp only [List.foldlM_nil, Option.pure_def, Option.some.injEq] at h
    rw [← h]
  | cons a l ih =>
    intro st res h
    rw [List.foldlM_cons] at h
    rcases hr : read st a with ⟨rr, st1, ev⟩
    rcases rr with w | _ | _
    · simp only [hr, Option.some_bind] at h
      have hm := ih _ _ h
      obtain ⟨_, _, hs1⟩ := read_ok_inv st a w st1 ev hr
      rw [hm, hs1]
    · simp only [hr] at h
      cases h
    · simp only [hr] at h
      cases h

theorem destroy_msize (s s' : State) (h : destroy s = some s') :
    s'.msize = s.msize := by
  unfold destroy at h
  rcases hf : (List.range s.msize).foldlM (fun (st : State) (i : Nat) =>
      match read st i with
      | (.ok val, st1, _) =>
        some { st1 with rc := rcDec (rcDec st1.rc val) val }
      | _ => none) s with _ | st
  · rw [hf] at h
    cases h
  · rw [hf] at h
    simp only [Option.map_some', Option.some.injEq] at h
    rw [← h]
    show st.msize = s.msize
    exact destroyFold_msize _ _ _ hf

/-- C6: the size is monotonically non-decreasing — no public operation
(`append`, `read`, `write`, `size`, `save`, `load`, destruction) ever
decreases the value `size()` returns; there is no deletion or truncation
operation. -/
theorem claim6_size_monotone :
    (∀ s v, size s ≤ size ((append s v).getD (0, s)).2) ∧
    (∀ s idx, size (read s idx).2.1 = size s) ∧
    (∀ s idx v, size (write s idx v).2.1 = size s) ∧
    (∀ ser s, (save ser s).2 = s) ∧
    (∀ des file s, size s ≤ size ((load des file s).st)) ∧
    (∀ s, size ((destroy s).getD s) = size s) := by
  refine ⟨?_, ?_, ?_, ?_, ?_, ?_⟩
  · intro s v
    rcases happ : append s v with _ | ⟨r, s'⟩
    · exact Nat.le_refl _
    · have := append_some_msize s v r s' happ
      show s.msize ≤ s'.msize
      omega
  · intro s idx
    unfold read
    by_cases h : s.msize ≤ idx
    · rw [if_pos h]
    · rw [if_neg h]
      rcases hsl : slotAt s idx with _ | w
      · simp only [hsl]
      · simp only [hsl]
        rfl
  · intro s idx v
    exact write_msize s idx v
  · intro ser s
    simp only [save, size]
    rcases hse : saveElems ser (List.range s.msize) (4 + 8 + 8 * s.msize) s
      with _ | ⟨s3, offs, data⟩
    · simp only [hse]
    · simp only [hse]
      exact saveElems_state ser _ _ _ _ _ _ hse
  · intro des file s
    unfold load
    rcases hmb : readBytes file 0 4 with _ | magicBytes
    · simp only [hmb]
      exact Nat.le_refl _
    simp only [hmb]
    by_cases hmag : bytesToNat magicBytes ≠ kMagic
    · rw [if_pos hmag]
      exact Nat.le_refl _
    rw [if_neg hmag]
    rcases hsb : readBytes file 4 8 with _ | szBytes
    · simp only [hsb]
      exact Nat.le_refl _
    simp only [hsb]
    rcases hdb : readBytes file 12 (8 * bytesToNat szBytes) with _ | dirBytes
    · simp only [hdb]
      exact Nat.le_refl _
    simp only [hdb]
    rcases hgrow : growUnsafe s (bytesToNat szBytes) with _ | s1
    · simp only [hgrow]
      exact Nat.le_refl _
    simp only [hgrow]
    have hz := growUnsafe_inv s _ s1 hgrow
    show size s ≤ ((loadLoop des file _ _ _ s1 none).st).msize
    rw [loadLoop_msize]
    simp only [size]
    omega
  · intro s
    rcases hd : destroy s with _ | s'
    · rfl
    · show size s' = size s
      have := destroy_msize s s' hd
      simp only [size]
      omega

end Fblualib
